import Mathlib

/- Shallow embedding of the two region-growing segmentation programs of the
   repository: `src/reg_grow.cpp` (fixed-threshold, exhaustive mode) and
   `src/reg_grow_dir.cpp` (interactive/adaptive mode).  Machine floating-point
   values are modelled by exact rationals; the C comparison `sqrt s < v`
   (with `s` a nonnegative integer sum of squares) is encoded as
   `0 < v ∧ s < v^2`, which is equivalent over the reals. -/

namespace RegGrow

/-- A pixel coordinate `(row, column)`, as C `int` values. -/
abbrev Coord := ℤ × ℤ

/-- A 3-channel color sample (`Vec3b` in `reg_grow.cpp`, `Vec3i` in
`reg_grow_dir.cpp`); channel arithmetic is done in `int` in both programs. -/
structure Color where
  ch0 : ℤ
  ch1 : ℤ
  ch2 : ℤ
deriving DecidableEq, Repr

/-- Squared Euclidean color distance, the radicand computed by `distance` in
`reg_grow.cpp` and by `cv::norm` in `reg_grow_dir.cpp`. -/
def sqDist (a b : Color) : ℤ :=
  (a.ch0 - b.ch0) ^ 2 + (a.ch1 - b.ch1) ^ 2 + (a.ch2 - b.ch2) ^ 2

/-- Squared Euclidean norm of a color, radicand of `cv::norm(im.at<Vec3i>(x0, y0))`. -/
def sqNorm (a : Color) : ℤ := a.ch0 ^ 2 + a.ch1 ^ 2 + a.ch2 ^ 2

/-- `sqrt s < v` encoded exactly over ℚ for a nonnegative radicand `s`:
the comparison holds iff `v` is positive and `s < v^2`. -/
def distLt (s : ℤ) (v : ℚ) : Prop := 0 < v ∧ (s : ℚ) < v ^ 2

instance distLt.decide (s : ℤ) (v : ℚ) : Decidable (distLt s v) := by
  unfold distLt; infer_instance

/-- The read-only image: dimensions plus a pixel sampling function
(`rg->im` / `this->im`). -/
structure Grid where
  h : ℕ
  w : ℕ
  im : Coord → Color

/-- The boundary predicate `boundaries(x, y)` shared by both programs:
`x >= 0 && x < h && y >= 0 && y < w`. -/
def inBounds (g : Grid) (p : Coord) : Prop :=
  0 ≤ p.1 ∧ p.1 < (g.h : ℤ) ∧ 0 ≤ p.2 ∧ p.2 < (g.w : ℤ)

instance inBounds.decide (g : Grid) (p : Coord) : Decidable (inBounds g p) := by
  unfold inBounds; infer_instance

/-- All grid cells in row-major order, the scan order of the exhaustive pass. -/
def cells (g : Grid) : List Coord :=
  (List.range g.h).flatMap fun x =>
    (List.range g.w).map fun y => (Int.ofNat x, Int.ofNat y)

/-- Write one cell of a label map (`passedBy[..] = v`). -/
def setL (L : Coord → ℤ) (p : Coord) (v : ℤ) : Coord → ℤ :=
  fun q => if q = p then v else L q

/-- `cv::countNonZero(passedBy == v)`: number of grid cells carrying label `v`. -/
def countOf (g : Grid) (L : Coord → ℤ) (v : ℤ) : ℕ :=
  (cells g).countP fun p => decide (L p = v)

/-- Number of labeled (non-zero) cells of the label map. -/
def countLabeled (g : Grid) (L : Coord → ℤ) : ℕ :=
  (cells g).countP fun p => decide (L p ≠ 0)

/-- `cv::countNonZero(passedBy > 0)` used by `PassedAll`. -/
def countPos (g : Grid) (L : Coord → ℤ) : ℕ :=
  (cells g).countP fun p => decide (0 < L p)

/-- The eight neighbor offsets in the order generated by the two nested
`for (i = -1..1) for (j = -1..1)` loops, skipping `(0,0)`. -/
def offsets : List (ℤ × ℤ) :=
  [(-1, -1), (-1, 0), (-1, 1), (0, -1), (0, 1), (1, -1), (1, 0), (1, 1)]

/-- Per-pixel brightness `cv::mean(im.at<Vec3i>(x, y))[0]`: the mean of the
three channels. -/
def brightness (c : Color) : ℚ := ((c.ch0 + c.ch1 + c.ch2 : ℤ) : ℚ) / 3

/-- `cv::mean(elems)[0]` on the accumulator of brightness values. -/
def listMean (l : List ℚ) : ℚ := l.sum / (l.length : ℚ)

/-! ## The explicit coordinate stack of `reg_grow.cpp` (struct `Stack`) -/

/-- The C `Stack`: two parallel coordinate arrays (only the live prefix of
length `size` is modelled), the live size, and the allocated capacity. -/
structure CStack where
  xs : List ℤ
  ys : List ℤ
  size : ℤ
  capacity : ℤ
deriving DecidableEq, Repr

/-- `initStack`: empty arrays, size 0, given capacity. -/
def initStack (cap : ℤ) : CStack := ⟨[], [], 0, cap⟩

/-- `push`: capacity doubles when full, then the pair is stored at index
`size` and `size` is incremented. -/
def pushStack (s : CStack) (x y : ℤ) : CStack :=
  let s1 := if s.size = s.capacity then
              CStack.mk s.xs s.ys s.size (s.capacity * 2) else s
  CStack.mk (s1.xs ++ [x]) (s1.ys ++ [y]) (s1.size + 1) s1.capacity

/-- `pop(stack, &x, &y)`: when `size > 0` the top pair is removed and stored
into the output variables; on an empty stack only a message is printed and
neither the stack nor the output variables change.  The arguments `a b` are
the values held by the caller's output variables before the call. -/
def popStack (s : CStack) (a b : ℤ) : CStack × ℤ × ℤ :=
  if 0 < s.size then
    (CStack.mk s.xs.dropLast s.ys.dropLast (s.size - 1) s.capacity,
      s.xs.getLastD a, s.ys.getLastD b)
  else (s, a, b)

/-- A stack operation issued by a client of the C `Stack`. -/
inductive StackOp where
  | pushOp (x y : ℤ)
  | popOp
deriving DecidableEq, Repr

/-- Run a sequence of stack operations starting from `initStack 1000`
(the capacity used by `initRegionGrow`). -/
def runOps (ops : List StackOp) : CStack :=
  ops.foldl
    (fun s op => match op with
      | .pushOp x y => pushStack s x y
      | .popOp => (popStack s 0 0).1)
    (initStack 1000)

theorem pushStack_size (s : CStack) (x y : ℤ) :
    (pushStack s x y).size = s.size + 1 := by
  unfold pushStack
  split <;> rfl

theorem popStack_size_nonneg (s : CStack) (a b : ℤ) (hs : 0 ≤ s.size) :
    0 ≤ (popStack s a b).1.size := by
  unfold popStack
  split
  · next h => simpa using h
  · simpa using hs

theorem runOps_size_nonneg (ops : List StackOp) : 0 ≤ (runOps ops).size := by
  suffices h : ∀ (l : List StackOp) (s : CStack), 0 ≤ s.size →
      0 ≤ (l.foldl (fun s op => match op with
        | .pushOp x y => pushStack s x y
        | .popOp => (popStack s 0 0).1) s).size by
    exact h ops (initStack 1000) le_rfl
  intro l
  induction l with
  | nil => intro s hs; simpa using hs
  | cons op rest ih =>
    intro s hs
    cases op with
    | pushOp x y =>
      refine ih _ ?_
      rw [pushStack_size]
      omega
    | popOp => exact ih _ (popStack_size_nonneg s 0 0 hs)

/-! ## `reg_grow.cpp`: fixed-threshold, exhaustive mode

The C program drives one shared stack, draining it completely inside `BFS`
before `ApplyRegionGrow` moves to the next seed, so the stack is provably
empty whenever a new seed is pushed; the embedding therefore starts each
region's traversal from the singleton stack `[seed]`.  The `while` loop of
`BFS` is given explicit fuel `g.h * g.w + 1`; since every push is paired
with a cell turning from label 0 to a non-zero label, at most `h·w` pops can
ever happen, so this fuel never runs out on the states the program reaches. -/

/-- State of the fixed-threshold program: the `passedBy` label map (stored
as doubles in C but only ever holding integer region ids), the region
counter, the iteration counter and the coordinate stack (head = top). -/
structure StateRG where
  labels : Coord → ℤ
  currentRegion : ℤ
  iterations : ℤ
  stack : List Coord

/-- One admission `(parent, child)`: `child` was labeled and pushed while the
popped pixel `parent` was being scanned. -/
abbrev Adm := Coord × Coord

/-- The neighbor scan of `BFS` in `reg_grow.cpp` for the popped pixel `xy`:
for each offset, the neighbor is tested with `boundaries && passedBy == 0`,
then `distance(im(x, y), im(nx, ny)) < var` where `var` is the fixed
threshold; passing neighbors are labeled `rn` and pushed. -/
def scanRG (g : Grid) (th : ℚ) (rn : ℤ) (xy : Coord) :
    List (ℤ × ℤ) → (Coord → ℤ) → List Coord → List Adm →
    (Coord → ℤ) × List Coord × List Adm
  | [], L, S, A => (L, S, A)
  | o :: os, L, S, A =>
    let n : Coord := (xy.1 + o.1, xy.2 + o.2)
    if inBounds g n ∧ L n = 0 ∧ distLt (sqDist (g.im xy) (g.im n)) th then
      scanRG g th rn xy os (setL L n rn) (n :: S) (A ++ [(xy, n)])
    else
      scanRG g th rn xy os L S A

/-- The `while (!isEmpty(&rg->stack))` loop of `BFS`: pop a coordinate,
increment `iterations`, scan its eight neighbors, repeat. -/
def bfsRG (g : Grid) (th : ℚ) (rn : ℤ) :
    ℕ → StateRG → List Adm → StateRG × List Adm
  | 0, st, A => (st, A)
  | fuel + 1, st, A =>
    match st.stack with
    | [] => (st, A)
    | xy :: rest =>
      let r := scanRG g th rn xy offsets st.labels rest A
      bfsRG g th rn fuel
        ⟨r.1, st.currentRegion, st.iterations + 1, r.2.1⟩ r.2.2

/-- Trace record of one region grown by the exhaustive pass: its id, the
seed cell where it began growing, and its admissions in order. -/
structure RegionRec where
  id : ℤ
  seed : Coord
  adms : List Adm
deriving DecidableEq, Repr

/-- The row-major seed scan of `ApplyRegionGrow` in `reg_grow.cpp`: each
unlabeled cell becomes the seed of a new region (counter incremented, seed
labeled, pushed, `BFS` run). -/
def applyGo (g : Grid) (th : ℚ) :
    List Coord → StateRG → List RegionRec → StateRG × List RegionRec
  | [], st, tr => (st, tr)
  | p :: ps, st, tr =>
    if st.labels p = 0 then
      let r := st.currentRegion + 1
      let L1 := setL st.labels p r
      let res := bfsRG g th (L1 p) (g.h * g.w + 1)
        ⟨L1, r, st.iterations, [p]⟩ []
      applyGo g th ps res.1 (tr ++ [⟨r, p, res.2⟩])
    else
      applyGo g th ps st tr

/-- Entry point of the fixed-threshold program (`ApplyRegionGrow`), started
from the all-zero label map, counter 0 and empty stack. -/
def applyRG (g : Grid) (th : ℚ) : StateRG × List RegionRec :=
  applyGo g th (cells g) ⟨fun _ => 0, 0, 0, []⟩ []

/-! ## `reg_grow_dir.cpp`: interactive/adaptive mode

Here `BFS(x, y)` scans only the neighbors of the single popped pixel; the
`while (!stack.isEmpty())` loop lives in `ApplyRegionGrow`.  The shared
`Stack` object is provably empty whenever a new seed is pushed (the inner
`while` always drains it), so each region's traversal starts from the
singleton stack `[seed]`.  The `while` loop gets fuel `2·h·w + 2`, which
dominates the decreasing measure `stack length + 2 · (unlabeled cells)`. -/

/-- `getNeighbour(x0, y0)`: the in-bounds 8-neighbors of a pixel, in the
`i = -1..1, j = -1..1` generation order; `boundaries` is applied to every
generated neighbor before it is returned. -/
def getNeighbour (g : Grid) (p : Coord) : List Coord :=
  (offsets.map fun o => (p.1 + o.1, p.2 + o.2)).filter fun n => decide (inBounds g n)

/-- `PassedAll(200000)`: the global termination predicate
`iterations > max_iteration || countNonZero(passedBy > 0) == h * w`. -/
def passedAllP (g : Grid) (iter : ℤ) (L : Coord → ℤ) : Prop :=
  200000 < iter ∨ countPos g L = g.h * g.w

instance passedAllP.decide (g : Grid) (iter : ℤ) (L : Coord → ℤ) :
    Decidable (passedAllP g iter L) := by
  unfold passedAllP; infer_instance

/-- Trace record for one examined neighbor inside a `BFS` neighbor scan.
`predAt` is the value the termination predicate had when the neighbor was
reached, `labAt` its label at that moment, `compVar` is `some v` iff the
distance comparison was evaluated, with `v` the bound it used,
`elemsAfter` the accumulator after the iteration, `accIdx` the number of
neighbors already admitted in this same scan, and `scanPop` the popped
pixel whose scan this is (the last four fields are ghost data recording the
computation; they do not influence it). -/
structure Entry where
  coord : Coord
  predAt : Bool
  labAt : ℤ
  compVar : Option ℚ
  accepted : Bool
  elemsAfter : List ℚ
  accIdx : ℕ
  scanPop : Coord
deriving DecidableEq, Repr

/-- Trace record of one `BFS` call: the popped pixel, the predicate value on
entry, the examined neighbors in order, and whether the scan exited through
the `break`. -/
structure Scan where
  popped : Coord
  startPred : Bool
  entries : List Entry
  broke : Bool
deriving DecidableEq, Repr

/-- Trace record of one candidate seed examined by the interactive
`ApplyRegionGrow` loop. -/
structure SeedStep where
  seed : Coord
  grown : Bool
  regionId : ℤ
  scans : List Scan
  regionCount : ℕ
  reclaimed : Bool
  broke : Bool
deriving DecidableEq, Repr

/-- The neighbor loop of `BFS` in `reg_grow_dir.cpp`.  For each neighbor:
if it is unlabeled and its distance to the popped pixel `xy` is below
`var`, then — unless `PassedAll()` holds, which `break`s out — it is
labeled `rn`, pushed, its brightness is appended to `elems` and
`var = mean(elems)`; after every completed iteration
`var = max(var, thresh)`. -/
def scanD (g : Grid) (th : ℚ) (rn : ℤ) (iter : ℤ) (xy : Coord) :
    List Coord → (Coord → ℤ) → List Coord → List ℚ → ℚ → List Entry → ℕ →
    (Coord → ℤ) × List Coord × List Entry × Bool
  | [], L, S, _, _, es, _ => (L, S, es, false)
  | n :: ns, L, S, el, v, es, k =>
    let pr : Bool := decide (passedAllP g iter L)
    if L n = 0 then
      if distLt (sqDist (g.im xy) (g.im n)) v then
        if pr then
          (L, S, es ++ [⟨n, pr, 0, some v, false, el, k, xy⟩], true)
        else
          let L' := setL L n rn
          let el' := el ++ [brightness (g.im n)]
          scanD g th rn iter xy ns L' (n :: S) el' (max (listMean el') th)
            (es ++ [⟨n, pr, 0, some v, true, el', k, xy⟩]) (k + 1)
      else
        scanD g th rn iter xy ns L S el (max v th)
          (es ++ [⟨n, pr, 0, some v, false, el, k, xy⟩]) k
    else
      scanD g th rn iter xy ns L S el (max v th)
        (es ++ [⟨n, pr, L n, none, false, el, k, xy⟩]) k

/-- The `while (!stack.isEmpty()) { auto [x, y] = stack.pop(); BFS(x, y);
iterations++; }` loop of the interactive `ApplyRegionGrow`.  Each `BFS`
call reads `regionNum` from the popped pixel's label, restarts the
accumulator with the popped pixel's brightness and `var` with `thresh`,
and scans `getNeighbour` of the popped pixel. -/
def growLoop (g : Grid) (th : ℚ) :
    ℕ → StateRG → List Scan → StateRG × List Scan
  | 0, st, sc => (st, sc)
  | f + 1, st, sc =>
    match st.stack with
    | [] => (st, sc)
    | xy :: rest =>
      let rn := st.labels xy
      let pr0 : Bool := decide (passedAllP g st.iterations st.labels)
      let r := scanD g th rn st.iterations xy (getNeighbour g xy) st.labels rest
        [brightness (g.im xy)] th [] 0
      growLoop g th f ⟨r.1, st.currentRegion, st.iterations + 1, r.2.1⟩
        (sc ++ [⟨xy, pr0, r.2.2.1, r.2.2.2⟩])

/-- `reset_region` minus the returned coordinate pair:
`passedBy.setTo(0, passedBy == r)`. -/
def clearLab (L : Coord → ℤ) (r : ℤ) : Coord → ℤ :=
  fun q => if L q = r then 0 else L q

/-- The candidate-seed loop of the interactive `ApplyRegionGrow`: a seed is
grown when it is unlabeled and its pixel has positive norm; after the stack
drains, `PassedAll()` `break`s out of the whole loop, otherwise a region
smaller than `8 * 8` is reclaimed through `reset_region` (the coordinate
pair `reset_region` returns is assigned to the loop-local copies `x0, y0`
and discarded when the range-`for` advances to the next seed, exactly as in
the C++ source).  The final `Bool` reports whether the run ended through
the `break`. -/
def applyD (g : Grid) (th : ℚ) :
    List Coord → StateRG → List SeedStep → StateRG × List SeedStep × Bool
  | [], st, tr => (st, tr, false)
  | p :: ps, st, tr =>
    if st.labels p = 0 ∧ 0 < sqNorm (g.im p) then
      let r := st.currentRegion + 1
      let st1 : StateRG := ⟨setL st.labels p r, r, st.iterations, [p]⟩
      let res := growLoop g th (2 * (g.h * g.w) + 2) st1 []
      let st2 := res.1
      if passedAllP g st2.iterations st2.labels then
        (st2, tr ++ [⟨p, true, r, res.2, 0, false, true⟩], true)
      else
        let cnt := countOf g st2.labels r
        if cnt < 64 then
          let st3 : StateRG := ⟨clearLab st2.labels r, r - 1, st2.iterations, st2.stack⟩
          applyD g th ps st3 (tr ++ [⟨p, true, r, res.2, cnt, true, false⟩])
        else
          applyD g th ps st2 (tr ++ [⟨p, true, r, res.2, cnt, false, false⟩])
    else
      applyD g th ps st (tr ++ [⟨p, false, 0, [], 0, false, false⟩])

/-- The seed pre-expansion at the top of the interactive `ApplyRegionGrow`:
each caller seed is followed by its 8-neighborhood. -/
def seedExpand (g : Grid) (seeds : List Coord) : List Coord :=
  seeds.flatMap fun p => p :: getNeighbour g p

/-- Entry point of the interactive/adaptive program: expand the seeds, then
run the candidate-seed loop from the all-zero label map. -/
def runD (g : Grid) (th : ℚ) (seeds : List Coord) :
    StateRG × List SeedStep × Bool :=
  applyD g th (seedExpand g seeds) ⟨fun _ => 0, 0, 0, []⟩ []

/-- Region-id events of an interactive run, in order: a region was grown
with a given id, or the just-grown region with that id was reclaimed. -/
inductive Event where
  | grew (r : ℤ)
  | reclaimed (r : ℤ)
deriving DecidableEq, Repr

/-- The event sequence of an interactive run's seed trace. -/
def eventsOf (tr : List SeedStep) : List Event :=
  tr.flatMap fun s =>
    if s.grown then
      if s.reclaimed then [.grew s.regionId, .reclaimed s.regionId]
      else [.grew s.regionId]
    else []

/-- All neighbor-examination trace entries of an interactive run. -/
def allEntries (g : Grid) (th : ℚ) (seeds : List Coord) : List Entry :=
  ((runD g th seeds).2.1.flatMap SeedStep.scans).flatMap Scan.entries

/-- The adaptive bound at every distance comparison the run performs. -/
def allCompVars (g : Grid) (th : ℚ) (seeds : List Coord) : List ℚ :=
  (allEntries g th seeds).filterMap Entry.compVar

/-! ## Concrete runs used as counterexamples and witnesses -/

/-- A 1×3 image whose colors step by Euclidean distance 9 per column:
`(0,0,0)`, `(9,0,0)`, `(18,0,0)`. -/
def gridChain : Grid :=
  ⟨1, 3, fun p => if p.2 = 0 then ⟨0, 0, 0⟩ else if p.2 = 1 then ⟨9, 0, 0⟩
    else ⟨18, 0, 0⟩⟩

/-- A uniform image of the given dimensions, every pixel `(3,3,3)`. -/
def gridUniform (h w : ℕ) : Grid := ⟨h, w, fun _ => ⟨3, 3, 3⟩⟩

/-- A 1×5 image whose first two columns are `(3,3,3)` and whose last three
are `(90,90,90)`. -/
def gridSplit : Grid :=
  ⟨1, 5, fun p => if p.2 ≤ 1 then ⟨3, 3, 3⟩ else ⟨90, 90, 90⟩⟩

/-- Claim C1 as stated: in every region grown by the exhaustive pass, every
admitted pixel's color distance to the region's original seed pixel is
below the threshold. -/
def fixedSeedDistanceLaw (g : Grid) (th : ℚ) : Bool :=
  ((applyRG g th).2).all fun rec =>
    rec.adms.all fun pc =>
      decide (distLt (sqDist (g.im rec.seed) (g.im pc.2)) th)

/-- Claim C2 as stated: every non-zero label present in the final
interactive label map covers at least 64 cells. -/
def reclamationSizeLaw (g : Grid) (th : ℚ) (seeds : List Coord) : Bool :=
  (cells g).all fun p =>
    decide ((runD g th seeds).1.labels p = 0) ||
      decide (64 ≤ countOf g (runD g th seeds).1.labels ((runD g th seeds).1.labels p))

/-- Claim C3 as stated: whenever a candidate seed's region is reclaimed,
the next candidate seed processed is the reclaimed seed shifted by
`(-1, -1)`. -/
def shiftedRetryLaw (g : Grid) (th : ℚ) (seeds : List Coord) : Bool :=
  ((runD g th seeds).2.1.zip (runD g th seeds).2.1.tail).all fun ab =>
    !ab.1.reclaimed || decide (ab.2.seed = (ab.1.seed.1 - 1, ab.1.seed.2 - 1))

/-- Claim C4 as stated: at every admission, the accumulator holds exactly
one brightness entry for every pixel admitted into the currently-growing
region since that region's seed (seed included). -/
def regionAccumulatorLaw (g : Grid) (th : ℚ) (seeds : List Coord) : Bool :=
  (runD g th seeds).2.1.all fun st =>
    !st.grown ||
      (st.scans.foldl
        (fun acc sc =>
          sc.entries.foldl
            (fun a e =>
              if e.accepted then
                (a.1 + 1, a.2 && decide (e.elemsAfter.length = a.1 + 1))
              else a)
            acc)
        ((1 : ℕ), true)).2

/-- Claim C7 as stated: if the termination predicate becomes true during a
neighbor scan (it was false when the scan started), the remaining neighbors
are not examined at all. -/
def immediateAbandonLaw (g : Grid) (th : ℚ) (seeds : List Coord) : Bool :=
  ((runD g th seeds).2.1.flatMap SeedStep.scans).all fun sc =>
    sc.startPred || sc.entries.all fun e => !e.predAt

end RegGrow

namespace RegGrow

/-! ## Trace invariants of the adaptive neighbor scan -/

/-- Invariant of every neighbor-examination entry produced by a run of the
adaptive program: the bound used at a distance comparison never sits below
the configured threshold; an admitted neighbor's accumulator holds the
popped pixel's brightness followed by one entry per admission of this scan;
and no neighbor is admitted at a point where the termination predicate
already holds. -/
def EProp (g : Grid) (th : ℚ) (e : Entry) : Prop :=
  (∀ q, e.compVar = some q → th ≤ q) ∧
  (e.accepted = true → e.elemsAfter.length = e.accIdx + 2 ∧
    e.elemsAfter.head? = some (brightness (g.im e.scanPop))) ∧
  (e.predAt = true → e.accepted = false)

theorem scanD_entries (g : Grid) (th : ℚ) (rn iter : ℤ) (xy : Coord) :
    ∀ (ns : List Coord) (L : Coord → ℤ) (S : List Coord) (el : List ℚ) (v : ℚ)
      (es : List Entry) (k : ℕ),
    th ≤ v → el.length = k + 1 → el.head? = some (brightness (g.im xy)) →
    (∀ e ∈ es, EProp g th e) →
    ∀ e ∈ (scanD g th rn iter xy ns L S el v es k).2.2.1, EProp g th e := by
  intro ns
  induction ns with
  | nil =>
    intro L S el v es k _ _ _ hes e he
    exact hes e (by simpa [scanD] using he)
  | cons n ns ih =>
    intro L S el v es k hv hlen hhead hes e he
    rw [scanD] at he
    by_cases h0 : L n = 0
    · rw [if_pos h0] at he
      by_cases hd : distLt (sqDist (g.im xy) (g.im n)) v
      · rw [if_pos hd] at he
        by_cases hpr : decide (passedAllP g iter L) = true
        · simp only [hpr, if_true] at he
          rcases List.mem_append.1 he with h | h
          · exact hes e h
          · rcases List.mem_singleton.1 h with rfl
            refine ⟨fun q hq => ?_, fun hacc => by simp at hacc, fun _ => rfl⟩
            obtain rfl : v = q := by simpa using hq
            exact hv
        · simp only [hpr, if_false] at he
          refine ih _ _ _ _ _ _ (le_max_right _ _) ?_ ?_ ?_ e he
          · simp [hlen]
          · rcases el with _ | ⟨a, el'⟩
            · simp at hlen
            · simpa using hhead
          · intro e' he'
            rcases List.mem_append.1 he' with h | h
            · exact hes e' h
            · rcases List.mem_singleton.1 h with rfl
              refine ⟨fun q hq => ?_, fun _ => ⟨?_, ?_⟩, fun hp => ?_⟩
              · obtain rfl : v = q := by simpa using hq
                exact hv
              · simp [hlen]
              · simp only []
                rw [List.head?_append]
                rcases el with _ | ⟨a, el'⟩
                · simp at hlen
                · simp only [List.head?_cons] at hhead
                  simp [hhead]
              · simp only [] at hp
                simp at hp
      · rw [if_neg hd] at he
        refine ih _ _ _ _ _ _ (le_max_right _ _) hlen hhead ?_ e he
        intro e' he'
        rcases List.mem_append.1 he' with h | h
        · exact hes e' h
        · rcases List.mem_singleton.1 h with rfl
          refine ⟨fun q hq => ?_, fun hacc => by simp at hacc, fun _ => rfl⟩
          obtain rfl : v = q := by simpa using hq
          exact hv
    · rw [if_neg h0] at he
      refine ih _ _ _ _ _ _ (le_max_right _ _) hlen hhead ?_ e he
      intro e' he'
      rcases List.mem_append.1 he' with h | h
      · exact hes e' h
      · rcases List.mem_singleton.1 h with rfl
        exact ⟨fun q hq => by simp at hq, fun hacc => by simp at hacc, fun _ => rfl⟩

theorem growLoop_entries (g : Grid) (th : ℚ) :
    ∀ (f : ℕ) (st : StateRG) (sc : List Scan),
    (∀ s ∈ sc, ∀ e ∈ s.entries, EProp g th e) →
    ∀ s ∈ (growLoop g th f st sc).2, ∀ e ∈ s.entries, EProp g th e := by
  intro f
  induction f with
  | zero => intro st sc hsc; simpa [growLoop] using hsc
  | succ f ih =>
    intro st sc hsc
    rw [growLoop]
    rcases hstk : st.stack with _ | ⟨xy, rest⟩
    · simpa using hsc
    · refine ih _ _ ?_
      intro s hs
      rcases List.mem_append.1 hs with h | h
      · exact hsc s h
      · rcases List.mem_singleton.1 h with rfl
        intro e he
        exact scanD_entries g th (st.labels xy) st.iterations xy
          (getNeighbour g xy) st.labels rest [brightness (g.im xy)] th [] 0
          le_rfl (by simp) rfl (by simp) e he

theorem applyD_entries (g : Grid) (th : ℚ) :
    ∀ (ps : List Coord) (st : StateRG) (tr : List SeedStep),
    (∀ stp ∈ tr, ∀ s ∈ stp.scans, ∀ e ∈ s.entries, EProp g th e) →
    ∀ stp ∈ (applyD g th ps st tr).2.1, ∀ s ∈ stp.scans, ∀ e ∈ s.entries,
      EProp g th e := by
  intro ps
  induction ps with
  | nil => intro st tr htr; simpa [applyD] using htr
  | cons p ps ih =>
    intro st tr htr
    simp only [applyD]
    have hnew : ∀ s ∈ (growLoop g th (2 * (g.h * g.w) + 2)
        ⟨setL st.labels p (st.currentRegion + 1), st.currentRegion + 1,
          st.iterations, [p]⟩ []).2, ∀ e ∈ s.entries, EProp g th e :=
      growLoop_entries g th _ _ [] (by simp)
    split
    · split
      · intro stp hstp
        rcases List.mem_append.1 hstp with h | h
        · exact htr stp h
        · rcases List.mem_singleton.1 h with rfl
          intro s hs
          exact hnew s hs
      · split
        · refine ih _ _ ?_
          intro stp hstp
          rcases List.mem_append.1 hstp with h | h
          · exact htr stp h
          · rcases List.mem_singleton.1 h with rfl
            intro s hs
            exact hnew s hs
        · refine ih _ _ ?_
          intro stp hstp
          rcases List.mem_append.1 hstp with h | h
          · exact htr stp h
          · rcases List.mem_singleton.1 h with rfl
            intro s hs
            exact hnew s hs
    · refine ih _ _ ?_
      intro stp hstp
      rcases List.mem_append.1 hstp with h | h
      · exact htr stp h
      · rcases List.mem_singleton.1 h with rfl
        intro s hs
        simp at hs

theorem allEntries_eprop (g : Grid) (th : ℚ) (seeds : List Coord) :
    ∀ e ∈ allEntries g th seeds, EProp g th e := by
  intro e he
  rcases List.mem_flatMap.1 he with ⟨s, hs, he'⟩
  rcases List.mem_flatMap.1 hs with ⟨stp, hstp, hs'⟩
  exact applyD_entries g th _ _ [] (by simp) stp hstp s hs' e he'

/-! ## Invariants of the exhaustive pass -/

theorem setL_same (L : Coord → ℤ) (p : Coord) (v : ℤ) : setL L p v p = v := by
  simp [setL]

theorem setL_other (L : Coord → ℤ) (p q : Coord) (v : ℤ) (h : q ≠ p) :
    setL L p v q = L q := by
  simp [setL, h]

theorem mem_cells (g : Grid) (p : Coord) : p ∈ cells g ↔ inBounds g p := by
  constructor
  · intro h
    rcases List.mem_flatMap.1 h with ⟨x, hx, hp⟩
    rcases List.mem_map.1 hp with ⟨y, hy, rfl⟩
    rw [List.mem_range] at hx hy
    refine ⟨?_, ?_, ?_, ?_⟩ <;> simp only [Int.ofNat_eq_coe] <;> omega
  · rintro ⟨h1, h2, h3, h4⟩
    refine List.mem_flatMap.2 ⟨p.1.toNat, ?_, List.mem_map.2 ⟨p.2.toNat, ?_, ?_⟩⟩
    · rw [List.mem_range]; omega
    · rw [List.mem_range]; omega
    · obtain ⟨a, b⟩ := p
      simp only [Prod.mk.injEq, Int.ofNat_eq_coe]
      refine ⟨?_, ?_⟩ <;> simp only [] at h1 h3 ⊢ <;> omega

theorem cells_length (g : Grid) : (cells g).length = g.h * g.w := by
  rw [cells, List.flatMap_def, List.length_flatten, List.map_map]
  have he : ((fun l => List.length l) ∘ fun x : ℕ =>
      (List.range g.w).map fun y => (Int.ofNat x, Int.ofNat y)) = fun _ => g.w := by
    funext x
    simp
  rw [he, List.map_const', List.sum_replicate, List.length_range, smul_eq_mul]

theorem scanRG_frame (g : Grid) (th : ℚ) (rn : ℤ) (xy : Coord) :
    ∀ (os : List (ℤ × ℤ)) (L : Coord → ℤ) (S : List Coord) (A : List Adm)
      (q : Coord),
    (scanRG g th rn xy os L S A).1 q = L q ∨
      (L q = 0 ∧ (scanRG g th rn xy os L S A).1 q = rn ∧ inBounds g q) := by
  intro os
  induction os with
  | nil => intro L S A q; left; rfl
  | cons o os ih =>
    intro L S A q
    simp only [scanRG]
    split
    · next h =>
      rcases ih (setL L (xy.1 + o.1, xy.2 + o.2) rn)
        ((xy.1 + o.1, xy.2 + o.2) :: S)
        (A ++ [(xy, (xy.1 + o.1, xy.2 + o.2))]) q with h1 | h1
      · by_cases hq : q = (xy.1 + o.1, xy.2 + o.2)
        · subst hq
          right
          exact ⟨h.2.1, by rw [h1, setL_same], h.1⟩
        · left
          rw [h1, setL_other _ _ _ _ hq]
      · by_cases hq : q = (xy.1 + o.1, xy.2 + o.2)
        · subst hq
          right
          exact ⟨h.2.1, h1.2.1, h1.2.2⟩
        · rw [setL_other _ _ _ _ hq] at h1
          right
          exact h1
    · next h => exact ih L S A q

theorem scanRG_mono (g : Grid) (th : ℚ) (rn : ℤ) (xy : Coord)
    (os : List (ℤ × ℤ)) (L : Coord → ℤ) (S : List Coord) (A : List Adm)
    (q : Coord) (hq : L q ≠ 0) : (scanRG g th rn xy os L S A).1 q = L q := by
  rcases scanRG_frame g th rn xy os L S A q with h | h
  · exact h
  · exact absurd h.1 hq

theorem scanRG_stack (g : Grid) (th : ℚ) (rn : ℤ) (xy : Coord) :
    ∀ (os : List (ℤ × ℤ)) (L : Coord → ℤ) (S : List Coord) (A : List Adm),
    (∀ p ∈ S, L p = rn) →
    ∀ p ∈ (scanRG g th rn xy os L S A).2.1, (scanRG g th rn xy os L S A).1 p = rn := by
  intro os
  induction os with
  | nil =>
    intro L S A hS p hp
    exact hS p hp
  | cons o os ih =>
    intro L S A hS
    simp only [scanRG]
    split
    · next h =>
      refine ih _ _ _ ?_
      intro p hp
      rcases List.mem_cons.1 hp with rfl | hp
      · exact setL_same _ _ _
      · by_cases hq : p = (xy.1 + o.1, xy.2 + o.2)
        · subst hq; exact setL_same _ _ _
        · rw [setL_other _ _ _ _ hq]; exact hS p hp
    · next h => exact ih _ _ _ hS

theorem scanRG_adms (g : Grid) (th : ℚ) (rn : ℤ) (xy : Coord) (hrn : rn ≠ 0) :
    ∀ (os : List (ℤ × ℤ)) (L : Coord → ℤ) (S : List Coord) (A : List Adm),
    ∃ Δ, (scanRG g th rn xy os L S A).2.2 = A ++ Δ ∧
      ∀ pc ∈ Δ, pc.1 = xy ∧ distLt (sqDist (g.im xy) (g.im pc.2)) th ∧
        (scanRG g th rn xy os L S A).1 pc.2 = rn := by
  intro os
  induction os with
  | nil => intro L S A; exact ⟨[], by simp [scanRG], by simp⟩
  | cons o os ih =>
    intro L S A
    simp only [scanRG]
    split
    · next h =>
      rcases ih (setL L (xy.1 + o.1, xy.2 + o.2) rn)
        ((xy.1 + o.1, xy.2 + o.2) :: S)
        (A ++ [(xy, (xy.1 + o.1, xy.2 + o.2))]) with ⟨Δ, hΔeq, hΔ⟩
      refine ⟨(xy, (xy.1 + o.1, xy.2 + o.2)) :: Δ, by simpa using hΔeq, ?_⟩
      intro pc hpc
      rcases List.mem_cons.1 hpc with rfl | hpc
      · refine ⟨rfl, h.2.2, ?_⟩
        rw [scanRG_mono g th rn xy os _ _ _ _ (by rw [setL_same]; exact hrn)]
        exact setL_same _ _ _
      · exact hΔ pc hpc
    · next h => exact ih L S A

theorem bfsRG_frame (g : Grid) (th : ℚ) (rn : ℤ) :
    ∀ (fuel : ℕ) (st : StateRG) (A : List Adm) (q : Coord),
    (bfsRG g th rn fuel st A).1.labels q = st.labels q ∨
      (st.labels q = 0 ∧ (bfsRG g th rn fuel st A).1.labels q = rn ∧
        inBounds g q) := by
  intro fuel
  induction fuel with
  | zero => intro st A q; left; rfl
  | succ f ih =>
    intro st A q
    rw [bfsRG]
    rcases hstk : st.stack with _ | ⟨xy, rest⟩
    · left; rfl
    · dsimp only
      rcases ih ⟨(scanRG g th rn xy offsets st.labels rest A).1,
          st.currentRegion, st.iterations + 1,
          (scanRG g th rn xy offsets st.labels rest A).2.1⟩
          (scanRG g th rn xy offsets st.labels rest A).2.2 q with h1 | h1
      · rcases scanRG_frame g th rn xy offsets st.labels rest A q with h2 | h2
        · left; rw [h1]; exact h2
        · right; exact ⟨h2.1, by rw [h1]; exact h2.2.1, h2.2.2⟩
      · rcases scanRG_frame g th rn xy offsets st.labels rest A q with h2 | h2
        · right
          refine ⟨?_, h1.2.1, h1.2.2⟩
          rw [← h2]; exact h1.1
        · right; exact ⟨h2.1, h1.2.1, h1.2.2⟩

theorem bfsRG_mono (g : Grid) (th : ℚ) (rn : ℤ) (fuel : ℕ) (st : StateRG)
    (A : List Adm) (q : Coord) (hq : st.labels q ≠ 0) :
    (bfsRG g th rn fuel st A).1.labels q = st.labels q := by
  rcases bfsRG_frame g th rn fuel st A q with h | h
  · exact h
  · exact absurd h.1 hq

theorem bfsRG_region (g : Grid) (th : ℚ) (rn : ℤ) :
    ∀ (fuel : ℕ) (st : StateRG) (A : List Adm),
    (bfsRG g th rn fuel st A).1.currentRegion = st.currentRegion := by
  intro fuel
  induction fuel with
  | zero => intro st A; rfl
  | succ f ih =>
    intro st A
    rw [bfsRG]
    rcases hstk : st.stack with _ | ⟨xy, rest⟩
    · rfl
    · dsimp only
      exact ih _ _

theorem bfsRG_spec (g : Grid) (th : ℚ) (rn : ℤ) (hrn : rn ≠ 0) :
    ∀ (fuel : ℕ) (st : StateRG) (A : List Adm),
    (∀ p ∈ st.stack, st.labels p = rn) →
    (∀ p ∈ (bfsRG g th rn fuel st A).1.stack,
       (bfsRG g th rn fuel st A).1.labels p = rn) ∧
    (∃ Δ, (bfsRG g th rn fuel st A).2 = A ++ Δ ∧ ∀ pc ∈ Δ,
       distLt (sqDist (g.im pc.1) (g.im pc.2)) th ∧
       (bfsRG g th rn fuel st A).1.labels pc.2 = rn ∧
       (bfsRG g th rn fuel st A).1.labels pc.1 = rn) := by
  intro fuel
  induction fuel with
  | zero =>
    intro st A hS
    exact ⟨hS, ⟨[], by simp [bfsRG], by simp⟩⟩
  | succ f ih =>
    intro st A hS
    rw [bfsRG]
    rcases hstk : st.stack with _ | ⟨xy, rest⟩
    · refine ⟨?_, ⟨[], by simp, by simp⟩⟩
      intro p hp
      rw [hstk] at hp
      simp at hp
    · dsimp only
      have hSrest : ∀ p ∈ rest, st.labels p = rn := by
        intro p hp
        exact hS p (by rw [hstk]; exact List.mem_cons_of_mem _ hp)
      have hxy : st.labels xy = rn :=
        hS xy (by rw [hstk]; exact List.mem_cons_self _ _)
      have hS' : ∀ p ∈ (scanRG g th rn xy offsets st.labels rest A).2.1,
          (scanRG g th rn xy offsets st.labels rest A).1 p = rn :=
        scanRG_stack g th rn xy offsets st.labels rest A hSrest
      rcases scanRG_adms g th rn xy hrn offsets st.labels rest A with
        ⟨Δ0, hΔ0eq, hΔ0⟩
      rcases ih ⟨(scanRG g th rn xy offsets st.labels rest A).1,
          st.currentRegion, st.iterations + 1,
          (scanRG g th rn xy offsets st.labels rest A).2.1⟩
          (scanRG g th rn xy offsets st.labels rest A).2.2 hS' with
        ⟨hstk', Δ', hΔ'eq, hΔ'⟩
      refine ⟨hstk', ⟨Δ0 ++ Δ', ?_, ?_⟩⟩
      · rw [hΔ'eq, hΔ0eq, List.append_assoc]
      · intro pc hpc
        rcases List.mem_append.1 hpc with hpc | hpc
        · rcases hΔ0 pc hpc with ⟨hpc1, hpcd, hpc2⟩
          refine ⟨by rw [hpc1]; exact hpcd, ?_, ?_⟩
          · have hm : (bfsRG g th rn f
                ⟨(scanRG g th rn xy offsets st.labels rest A).1,
                  st.currentRegion, st.iterations + 1,
                  (scanRG g th rn xy offsets st.labels rest A).2.1⟩
                (scanRG g th rn xy offsets st.labels rest A).2.2).1.labels pc.2
                = (scanRG g th rn xy offsets st.labels rest A).1 pc.2 :=
              bfsRG_mono g th rn f _ _ pc.2
                (show (scanRG g th rn xy offsets st.labels rest A).1 pc.2 ≠ 0 by
                  rw [hpc2]; exact hrn)
            rw [hm, hpc2]
          · have hRxy : (scanRG g th rn xy offsets st.labels rest A).1 xy = rn := by
              rw [scanRG_mono g th rn xy offsets st.labels rest A xy
                (by rw [hxy]; exact hrn)]
              exact hxy
            have hm : (bfsRG g th rn f
                ⟨(scanRG g th rn xy offsets st.labels rest A).1,
                  st.currentRegion, st.iterations + 1,
                  (scanRG g th rn xy offsets st.labels rest A).2.1⟩
                (scanRG g th rn xy offsets st.labels rest A).2.2).1.labels xy
                = (scanRG g th rn xy offsets st.labels rest A).1 xy :=
              bfsRG_mono g th rn f _ _ xy
                (show (scanRG g th rn xy offsets st.labels rest A).1 xy ≠ 0 by
                  rw [hRxy]; exact hrn)
            rw [hpc1, hm, hRxy]
        · exact hΔ' pc hpc

/-- The state-and-admissions result of growing one region of the exhaustive
pass from seed `p` (counter already incremented, seed labeled and pushed,
`BFS` run); ghost abbreviation for the proofs below. -/
def growB (g : Grid) (th : ℚ) (st : StateRG) (p : Coord) : StateRG × List Adm :=
  bfsRG g th (setL st.labels p (st.currentRegion + 1) p) (g.h * g.w + 1)
    ⟨setL st.labels p (st.currentRegion + 1), st.currentRegion + 1,
      st.iterations, [p]⟩ []

theorem applyGo_cons (g : Grid) (th : ℚ) (p : Coord) (ps : List Coord)
    (st : StateRG) (tr : List RegionRec) :
    applyGo g th (p :: ps) st tr =
      if st.labels p = 0 then
        applyGo g th ps (growB g th st p).1
          (tr ++ [⟨st.currentRegion + 1, p, (growB g th st p).2⟩])
      else applyGo g th ps st tr := rfl

theorem growB_region (g : Grid) (th : ℚ) (st : StateRG) (p : Coord) :
    (growB g th st p).1.currentRegion = st.currentRegion + 1 :=
  bfsRG_region g th _ _ _ _

theorem growB_rn (st : StateRG) (p : Coord) :
    setL st.labels p (st.currentRegion + 1) p = st.currentRegion + 1 :=
  setL_same _ _ _

theorem growB_frame (g : Grid) (th : ℚ) (st : StateRG) (p : Coord) (q : Coord) :
    (growB g th st p).1.labels q = setL st.labels p (st.currentRegion + 1) q ∨
      (setL st.labels p (st.currentRegion + 1) q = 0 ∧
       (growB g th st p).1.labels q = st.currentRegion + 1 ∧ inBounds g q) := by
  rcases bfsRG_frame g th (setL st.labels p (st.currentRegion + 1) p)
      (g.h * g.w + 1)
      ⟨setL st.labels p (st.currentRegion + 1), st.currentRegion + 1,
        st.iterations, [p]⟩ [] q with h | h
  · left; exact h
  · right
    refine ⟨h.1, ?_, h.2.2⟩
    unfold growB
    rw [h.2.1, growB_rn]

theorem growB_labels_seed (g : Grid) (th : ℚ) (st : StateRG) (p : Coord)
    (hcr : 0 ≤ st.currentRegion) :
    (growB g th st p).1.labels p = st.currentRegion + 1 := by
  have h0 : setL st.labels p (st.currentRegion + 1) p ≠ 0 := by
    rw [growB_rn]; omega
  have := bfsRG_mono g th (setL st.labels p (st.currentRegion + 1) p)
    (g.h * g.w + 1)
    ⟨setL st.labels p (st.currentRegion + 1), st.currentRegion + 1,
      st.iterations, [p]⟩ [] p h0
  unfold growB
  rw [this]
  exact growB_rn st p

theorem growB_mono (g : Grid) (th : ℚ) (st : StateRG) (p : Coord)
    (hp0 : st.labels p = 0) (q : Coord) (hq : st.labels q ≠ 0) :
    (growB g th st p).1.labels q = st.labels q := by
  have hqp : q ≠ p := fun h => hq (h ▸ hp0)
  have h1 : setL st.labels p (st.currentRegion + 1) q = st.labels q :=
    setL_other _ _ _ _ hqp
  have := bfsRG_mono g th (setL st.labels p (st.currentRegion + 1) p)
    (g.h * g.w + 1)
    ⟨setL st.labels p (st.currentRegion + 1), st.currentRegion + 1,
      st.iterations, [p]⟩ [] q
    (show setL st.labels p (st.currentRegion + 1) q ≠ 0 by
      rw [h1]; exact hq)
  unfold growB
  rw [this]
  exact h1

theorem growB_bounds (g : Grid) (th : ℚ) (st : StateRG) (p : Coord)
    (hcr : 0 ≤ st.currentRegion)
    (hb : ∀ q, 0 ≤ st.labels q ∧ st.labels q ≤ st.currentRegion) (q : Coord) :
    0 ≤ (growB g th st p).1.labels q ∧
      (growB g th st p).1.labels q ≤ st.currentRegion + 1 := by
  rcases growB_frame g th st p q with h | h
  · rw [h]
    by_cases hqp : q = p
    · subst hqp; rw [growB_rn]; omega
    · rw [setL_other _ _ _ _ hqp]
      rcases hb q with ⟨h1, h2⟩
      omega
  · rw [h.2.1]
    omega

theorem growB_adms (g : Grid) (th : ℚ) (st : StateRG) (p : Coord)
    (hcr : 0 ≤ st.currentRegion) :
    ∀ pc ∈ (growB g th st p).2,
      distLt (sqDist (g.im pc.1) (g.im pc.2)) th ∧
      (growB g th st p).1.labels pc.2 = st.currentRegion + 1 ∧
      (growB g th st p).1.labels pc.1 = st.currentRegion + 1 := by
  have hrn : setL st.labels p (st.currentRegion + 1) p ≠ 0 := by
    rw [growB_rn]; omega
  rcases bfsRG_spec g th (setL st.labels p (st.currentRegion + 1) p) hrn
      (g.h * g.w + 1)
      ⟨setL st.labels p (st.currentRegion + 1), st.currentRegion + 1,
        st.iterations, [p]⟩ []
      (by intro q hq
          rcases List.mem_singleton.1 hq with rfl
          rfl) with ⟨_, Δ, hΔeq, hΔ⟩
  intro pc hpc
  have hpc' : pc ∈ Δ := by
    unfold growB at hpc
    rw [hΔeq] at hpc
    simpa using hpc
  rcases hΔ pc hpc' with ⟨h1, h2, h3⟩
  refine ⟨h1, ?_, ?_⟩
  · unfold growB
    rw [h2]
    exact growB_rn st p
  · unfold growB
    rw [h3]
    exact growB_rn st p

theorem applyGo_spec (g : Grid) (th : ℚ) :
    ∀ (ps : List Coord) (st : StateRG) (tr : List RegionRec),
    0 ≤ st.currentRegion →
    (∀ q, 0 ≤ st.labels q ∧ st.labels q ≤ st.currentRegion) →
    (∀ q, st.labels q ≠ 0 →
       (applyGo g th ps st tr).1.labels q = st.labels q) ∧
    (∀ p ∈ ps, (applyGo g th ps st tr).1.labels p ≠ 0) ∧
    st.currentRegion ≤ (applyGo g th ps st tr).1.currentRegion ∧
    (∀ q, 0 ≤ (applyGo g th ps st tr).1.labels q ∧
       (applyGo g th ps st tr).1.labels q ≤
         (applyGo g th ps st tr).1.currentRegion) ∧
    (∀ v, st.currentRegion < v →
       v ≤ (applyGo g th ps st tr).1.currentRegion →
       ∃ p, p ∈ ps ∧ (applyGo g th ps st tr).1.labels p = v) ∧
    (∀ q, ¬ inBounds g q → q ∉ ps →
       (applyGo g th ps st tr).1.labels q = st.labels q) ∧
    (∃ Δ, (applyGo g th ps st tr).2 = tr ++ Δ ∧ ∀ rec ∈ Δ,
       1 ≤ rec.id ∧ rec.id ≤ (applyGo g th ps st tr).1.currentRegion ∧
       ∀ pc ∈ rec.adms, distLt (sqDist (g.im pc.1) (g.im pc.2)) th ∧
         (applyGo g th ps st tr).1.labels pc.2 = rec.id ∧
         (applyGo g th ps st tr).1.labels pc.1 = rec.id) := by
  intro ps
  induction ps with
  | nil =>
    intro st tr hcr hb
    refine ⟨fun q _ => rfl, by simp, le_rfl, hb, ?_, fun q _ _ => rfl,
      ⟨[], by simp [applyGo], by simp⟩⟩
    intro v hv1 hv2
    exact absurd (lt_of_lt_of_le hv1 hv2) (lt_irrefl _)
  | cons p ps ih =>
    intro st tr hcr hb
    rw [applyGo_cons]
    by_cases hp0 : st.labels p = 0
    · rw [if_pos hp0]
      have hcr2 : 0 ≤ (growB g th st p).1.currentRegion := by
        rw [growB_region]; omega
      have hb2 : ∀ q, 0 ≤ (growB g th st p).1.labels q ∧
          (growB g th st p).1.labels q ≤ (growB g th st p).1.currentRegion := by
        intro q
        rw [growB_region]
        exact growB_bounds g th st p hcr hb q
      rcases ih (growB g th st p).1
          (tr ++ [⟨st.currentRegion + 1, p, (growB g th st p).2⟩]) hcr2 hb2 with
        ⟨ihmono, ihcomp, ihcr, ihb, ihpres, ihoob, Δ, ihΔeq, ihΔ⟩
      have hseed : (growB g th st p).1.labels p = st.currentRegion + 1 :=
        growB_labels_seed g th st p hcr
      have hmono : ∀ q, st.labels q ≠ 0 →
          (applyGo g th ps (growB g th st p).1
            (tr ++ [⟨st.currentRegion + 1, p, (growB g th st p).2⟩])).1.labels q
            = st.labels q := by
        intro q hq
        rw [ihmono q (by rw [growB_mono g th st p hp0 q hq]; exact hq),
          growB_mono g th st p hp0 q hq]
      have hcr3 : st.currentRegion + 1 ≤ (applyGo g th ps (growB g th st p).1
          (tr ++ [⟨st.currentRegion + 1, p,
            (growB g th st p).2⟩])).1.currentRegion := by
        rw [growB_region] at ihcr
        exact ihcr
      have hpfinal : (applyGo g th ps (growB g th st p).1
          (tr ++ [⟨st.currentRegion + 1, p, (growB g th st p).2⟩])).1.labels p
          = st.currentRegion + 1 := by
        rw [ihmono p (by rw [hseed]; omega), hseed]
      refine ⟨hmono, ?_, by omega, ihb, ?_, ?_, ?_⟩
      · intro q hq
        rcases List.mem_cons.1 hq with rfl | hq
        · rw [hpfinal]; omega
        · exact ihcomp q hq
      · intro v hv1 hv2
        by_cases hvr : v = st.currentRegion + 1
        · exact ⟨p, List.mem_cons_self _ _, by rw [hpfinal, hvr]⟩
        · have : (growB g th st p).1.currentRegion < v := by
            rw [growB_region]; omega
          rcases ihpres v this hv2 with ⟨q, hq1, hq2⟩
          exact ⟨q, List.mem_cons_of_mem _ hq1, hq2⟩
      · intro q hoob hqps
        have hqp : q ≠ p := fun h => hqps (h ▸ List.mem_cons_self _ _)
        have hqps' : q ∉ ps := fun h => hqps (List.mem_cons_of_mem _ h)
        rw [ihoob q hoob hqps']
        rcases growB_frame g th st p q with h | h
        · rw [h, setL_other _ _ _ _ hqp]
        · exact absurd h.2.2 hoob
      · refine ⟨⟨st.currentRegion + 1, p, (growB g th st p).2⟩ :: Δ, ?_, ?_⟩
        · rw [ihΔeq, List.append_assoc]
          rfl
        · intro rec hrec
          rcases List.mem_cons.1 hrec with rfl | hrec
          · refine ⟨by simp only []; omega, ?_, ?_⟩
            · simp only []
              omega
            · intro pc hpc
              rcases growB_adms g th st p hcr pc hpc with ⟨h1, h2, h3⟩
              refine ⟨h1, ?_, ?_⟩
              · rw [ihmono pc.2 (by rw [h2]; omega), h2]
              · rw [ihmono pc.1 (by rw [h3]; omega), h3]
          · exact ihΔ rec hrec
    · rw [if_neg hp0]
      rcases ih st tr hcr hb with
        ⟨ihmono, ihcomp, ihcr, ihb, ihpres, ihoob, Δ, ihΔeq, ihΔ⟩
      refine ⟨ihmono, ?_, ihcr, ihb, ?_, ?_, ⟨Δ, ihΔeq, ihΔ⟩⟩
      · intro q hq
        rcases List.mem_cons.1 hq with rfl | hq
        · rw [ihmono q hp0]; exact hp0
        · exact ihcomp q hq
      · intro v hv1 hv2
        rcases ihpres v hv1 hv2 with ⟨q, hq1, hq2⟩
        exact ⟨q, List.mem_cons_of_mem _ hq1, hq2⟩
      · intro q hoob hqps
        exact ihoob q hoob (fun h => hqps (List.mem_cons_of_mem _ h))

theorem applyRG_spec (g : Grid) (th : ℚ) :
    (∀ p ∈ cells g, (applyRG g th).1.labels p ≠ 0) ∧
    (∀ q, 0 ≤ (applyRG g th).1.labels q ∧
       (applyRG g th).1.labels q ≤ (applyRG g th).1.currentRegion) ∧
    (∀ v, 0 < v → v ≤ (applyRG g th).1.currentRegion →
       ∃ p, p ∈ cells g ∧ (applyRG g th).1.labels p = v) ∧
    (∀ q, ¬ inBounds g q → (applyRG g th).1.labels q = 0) ∧
    (∀ rec ∈ (applyRG g th).2,
       1 ≤ rec.id ∧ rec.id ≤ (applyRG g th).1.currentRegion ∧
       ∀ pc ∈ rec.adms, distLt (sqDist (g.im pc.1) (g.im pc.2)) th ∧
         (applyRG g th).1.labels pc.2 = rec.id ∧
         (applyRG g th).1.labels pc.1 = rec.id) := by
  rcases applyGo_spec g th (cells g) ⟨fun _ => 0, 0, 0, []⟩ [] le_rfl
      (fun q => ⟨le_rfl, le_rfl⟩) with
    ⟨hmono, hcomp, hcr, hbound, hpres, hoob, Δ, hΔeq, hΔ⟩
  refine ⟨hcomp, hbound, hpres, ?_, ?_⟩
  · intro q hq
    exact hoob q hq (fun h => hq ((mem_cells g q).1 h))
  · intro rec hrec
    refine hΔ rec ?_
    have hrec' : rec ∈ ([] : List RegionRec) ++ Δ := by
      rw [← hΔeq]
      exact hrec
    simpa using hrec'

/-! ## Invariants of the interactive/adaptive pass -/

theorem getNeighbour_inBounds (g : Grid) (p : Coord) :
    ∀ n ∈ getNeighbour g p, inBounds g n := by
  intro n hn
  rcases List.mem_filter.1 hn with ⟨_, h⟩
  exact of_decide_eq_true h

theorem scanD_frame (g : Grid) (th : ℚ) (rn iter : ℤ) (xy : Coord) :
    ∀ (ns : List Coord) (L : Coord → ℤ) (S : List Coord) (el : List ℚ) (v : ℚ)
      (es : List Entry) (k : ℕ) (q : Coord),
    (scanD g th rn iter xy ns L S el v es k).1 q = L q ∨
      (L q = 0 ∧ (scanD g th rn iter xy ns L S el v es k).1 q = rn ∧
        q ∈ ns) := by
  intro ns
  induction ns with
  | nil => intro L S el v es k q; left; rfl
  | cons n ns ih =>
    intro L S el v es k q
    simp only [scanD]
    split
    · split
      · split
        · left; rfl
        · rcases ih (setL L n rn) (n :: S) (el ++ [brightness (g.im n)])
            (max (listMean (el ++ [brightness (g.im n)])) th)
            _ (k + 1) q with h1 | h1
          · by_cases hq : q = n
            · right
              refine ⟨by rw [hq]; assumption, ?_,
                by rw [hq]; exact List.mem_cons_self _ _⟩
              rw [h1, hq, setL_same]
            · left; rw [h1, setL_other _ _ _ _ hq]
          · by_cases hq : q = n
            · right
              exact ⟨by rw [hq]; assumption, h1.2.1,
                by rw [hq]; exact List.mem_cons_self _ _⟩
            · rw [setL_other _ _ _ _ hq] at h1
              right
              exact ⟨h1.1, h1.2.1, List.mem_cons_of_mem _ h1.2.2⟩
      · rcases ih L S el (max v th) _ k q with h1 | h1
        · left; exact h1
        · right; exact ⟨h1.1, h1.2.1, List.mem_cons_of_mem _ h1.2.2⟩
    · rcases ih L S el (max v th) _ k q with h1 | h1
      · left; exact h1
      · right; exact ⟨h1.1, h1.2.1, List.mem_cons_of_mem _ h1.2.2⟩

theorem scanD_mono (g : Grid) (th : ℚ) (rn iter : ℤ) (xy : Coord)
    (ns : List Coord) (L : Coord → ℤ) (S : List Coord) (el : List ℚ) (v : ℚ)
    (es : List Entry) (k : ℕ) (q : Coord) (hq : L q ≠ 0) :
    (scanD g th rn iter xy ns L S el v es k).1 q = L q := by
  rcases scanD_frame g th rn iter xy ns L S el v es k q with h | h
  · exact h
  · exact absurd h.1 hq

theorem scanD_stack (g : Grid) (th : ℚ) (rn iter : ℤ) (xy : Coord) :
    ∀ (ns : List Coord) (L : Coord → ℤ) (S : List Coord) (el : List ℚ) (v : ℚ)
      (es : List Entry) (k : ℕ),
    (∀ p ∈ S, L p = rn) →
    ∀ p ∈ (scanD g th rn iter xy ns L S el v es k).2.1,
      (scanD g th rn iter xy ns L S el v es k).1 p = rn := by
  intro ns
  induction ns with
  | nil => intro L S el v es k hS p hp; exact hS p hp
  | cons n ns ih =>
    intro L S el v es k hS
    simp only [scanD]
    split
    · split
      · split
        · exact hS
        · refine ih _ _ _ _ _ _ ?_
          intro p hp
          rcases List.mem_cons.1 hp with rfl | hp
          · exact setL_same _ _ _
          · by_cases hq : p = n
            · subst hq; exact setL_same _ _ _
            · rw [setL_other _ _ _ _ hq]; exact hS p hp
      · exact ih _ _ _ _ _ _ hS
    · exact ih _ _ _ _ _ _ hS

theorem growLoop_spec (g : Grid) (th : ℚ) (r : ℤ) (hr : r ≠ 0) :
    ∀ (f : ℕ) (st : StateRG) (sc : List Scan),
    (∀ p ∈ st.stack, st.labels p = r) →
    (∀ q, (growLoop g th f st sc).1.labels q = st.labels q ∨
       (st.labels q = 0 ∧ (growLoop g th f st sc).1.labels q = r ∧
         inBounds g q)) ∧
    (growLoop g th f st sc).1.currentRegion = st.currentRegion := by
  intro f
  induction f with
  | zero => intro st sc _; exact ⟨fun q => Or.inl rfl, rfl⟩
  | succ f ih =>
    intro st sc hS
    rw [growLoop]
    rcases hstk : st.stack with _ | ⟨xy, rest⟩
    · exact ⟨fun q => Or.inl rfl, rfl⟩
    · dsimp only
      have hxy : st.labels xy = r :=
        hS xy (by rw [hstk]; exact List.mem_cons_self _ _)
      have hSrest : ∀ p ∈ rest, st.labels p = r := fun p hp =>
        hS p (by rw [hstk]; exact List.mem_cons_of_mem _ hp)
      set D := scanD g th (st.labels xy) st.iterations xy (getNeighbour g xy)
        st.labels rest [brightness (g.im xy)] th [] 0 with hD
      rw [hxy] at hD
      have hS' : ∀ p ∈ D.2.1, D.1 p = r := by
        rw [hD]
        exact scanD_stack g th r st.iterations xy _ _ _ _ _ _ _ hSrest
      have hframe : ∀ q, D.1 q = st.labels q ∨
          (st.labels q = 0 ∧ D.1 q = r ∧ q ∈ getNeighbour g xy) := by
        rw [hD]
        intro q
        exact scanD_frame g th r st.iterations xy _ _ _ _ _ _ _ q
      rcases ih ⟨D.1, st.currentRegion, st.iterations + 1, D.2.1⟩
          (sc ++ [⟨xy, decide (passedAllP g st.iterations st.labels),
            D.2.2.1, D.2.2.2⟩]) hS' with ⟨ihframe, ihreg⟩
      refine ⟨?_, ihreg⟩
      intro q
      rcases ihframe q with h1 | h1
      · rcases hframe q with h2 | h2
        · left; rw [h1]; exact h2
        · right
          exact ⟨h2.1, by rw [h1]; exact h2.2.1,
            getNeighbour_inBounds g xy q h2.2.2⟩
      · rcases hframe q with h2 | h2
        · right
          refine ⟨by rw [← h2]; exact h1.1, h1.2.1, h1.2.2⟩
        · exfalso
          apply hr
          rw [← h2.2.1]
          exact h1.1
theorem countOf_congr (g : Grid) (L L' : Coord → ℤ) (v : ℤ)
    (h : ∀ q ∈ cells g, L' q = v ↔ L q = v) :
    countOf g L' v = countOf g L v := by
  unfold countOf
  refine List.countP_congr ?_
  intro q hq
  constructor
  · intro h1
    exact decide_eq_true ((h q hq).1 (of_decide_eq_true h1))
  · intro h1
    exact decide_eq_true ((h q hq).2 (of_decide_eq_true h1))

theorem countOf_clear_self (g : Grid) (L : Coord → ℤ) (r : ℤ) (hr : r ≠ 0) :
    countOf g (clearLab L r) r = 0 := by
  unfold countOf
  rw [List.countP_eq_zero]
  intro q _
  simp only [decide_eq_true_eq]
  unfold clearLab
  split
  · omega
  · next h => exact h

theorem countOf_clear_other (g : Grid) (L : Coord → ℤ) (r v : ℤ)
    (hv : v ≠ 0) (hvr : v ≠ r) :
    countOf g (clearLab L r) v = countOf g L v := by
  refine countOf_congr g L _ v ?_
  intro q _
  unfold clearLab
  split
  · next h =>
      constructor
      · intro h1; exact absurd h1.symm hv
      · intro h1; rw [h1] at h; exact absurd h hvr
  · exact Iff.rfl

theorem countOf_const_zero (g : Grid) (v : ℤ) (hv : v ≠ 0) :
    countOf g (fun _ => 0) v = 0 := by
  unfold countOf
  rw [List.countP_eq_zero]
  intro q _
  simp only [decide_eq_true_eq]
  omega

/-- The state-and-scans result of growing one region of the interactive pass
from seed `p`; ghost abbreviation for the proofs below. -/
def growD (g : Grid) (th : ℚ) (st : StateRG) (p : Coord) : StateRG × List Scan :=
  growLoop g th (2 * (g.h * g.w) + 2)
    ⟨setL st.labels p (st.currentRegion + 1), st.currentRegion + 1,
      st.iterations, [p]⟩ []

theorem applyD_cons (g : Grid) (th : ℚ) (p : Coord) (ps : List Coord)
    (st : StateRG) (tr : List SeedStep) :
    applyD g th (p :: ps) st tr =
      if st.labels p = 0 ∧ 0 < sqNorm (g.im p) then
        if passedAllP g (growD g th st p).1.iterations
            (growD g th st p).1.labels then
          ((growD g th st p).1,
            tr ++ [⟨p, true, st.currentRegion + 1, (growD g th st p).2, 0,
              false, true⟩], true)
        else if countOf g (growD g th st p).1.labels (st.currentRegion + 1)
            < 64 then
          applyD g th ps
            ⟨clearLab (growD g th st p).1.labels (st.currentRegion + 1),
              st.currentRegion + 1 - 1, (growD g th st p).1.iterations,
              (growD g th st p).1.stack⟩
            (tr ++ [⟨p, true, st.currentRegion + 1, (growD g th st p).2,
              countOf g (growD g th st p).1.labels (st.currentRegion + 1),
              true, false⟩])
        else
          applyD g th ps (growD g th st p).1
            (tr ++ [⟨p, true, st.currentRegion + 1, (growD g th st p).2,
              countOf g (growD g th st p).1.labels (st.currentRegion + 1),
              false, false⟩])
      else applyD g th ps st (tr ++ [⟨p, false, 0, [], 0, false, false⟩]) := by
  simp only [applyD, growD]

theorem growD_spec (g : Grid) (th : ℚ) (st : StateRG) (p : Coord)
    (hcr : 0 ≤ st.currentRegion) :
    (∀ q, (growD g th st p).1.labels q =
        setL st.labels p (st.currentRegion + 1) q ∨
      (setL st.labels p (st.currentRegion + 1) q = 0 ∧
        (growD g th st p).1.labels q = st.currentRegion + 1 ∧ inBounds g q)) ∧
    (growD g th st p).1.currentRegion = st.currentRegion + 1 := by
  have hr : st.currentRegion + 1 ≠ 0 := by omega
  rcases growLoop_spec g th (st.currentRegion + 1) hr (2 * (g.h * g.w) + 2)
      ⟨setL st.labels p (st.currentRegion + 1), st.currentRegion + 1,
        st.iterations, [p]⟩ []
      (by intro q hq
          rcases List.mem_singleton.1 hq with rfl
          exact setL_same _ _ _) with ⟨hframe, hreg⟩
  exact ⟨hframe, hreg⟩

theorem growD_frame2 (g : Grid) (th : ℚ) (st : StateRG) (p : Coord)
    (hcr : 0 ≤ st.currentRegion) (q : Coord) :
    (growD g th st p).1.labels q = st.labels q ∨ q = p ∨
      (st.labels q = 0 ∧
        (growD g th st p).1.labels q = st.currentRegion + 1 ∧
        inBounds g q) := by
  rcases (growD_spec g th st p hcr).1 q with h | h
  · by_cases hq : q = p
    · right; left; exact hq
    · left; rw [h, setL_other _ _ _ _ hq]
  · by_cases hq : q = p
    · right; left; exact hq
    · right; right
      rw [setL_other _ _ _ _ hq] at h
      exact h

theorem growD_countOf (g : Grid) (th : ℚ) (st : StateRG) (p : Coord)
    (hcr : 0 ≤ st.currentRegion)
    (_hb : ∀ q, 0 ≤ st.labels q ∧ st.labels q ≤ st.currentRegion)
    (hp0 : st.labels p = 0) (v : ℤ) (hv : v ≠ 0)
    (hvr : v ≠ st.currentRegion + 1) :
    countOf g (growD g th st p).1.labels v = countOf g st.labels v := by
  refine countOf_congr g st.labels _ v ?_
  intro q _
  rcases growD_frame2 g th st p hcr q with h | h | h
  · rw [h]
  · rw [h]
    constructor
    · intro h1
      rcases (growD_spec g th st p hcr).1 p with h2 | h2
      · rw [h2, setL_same] at h1
        exact absurd h1.symm (by omega)
      · rw [h2.2.1] at h1
        exact absurd h1.symm (by omega)
    · intro h1
      rw [hp0] at h1
      exact absurd h1.symm hv
  · constructor
    · intro h1
      rw [h.2.1] at h1
      exact absurd h1.symm (by omega)
    · intro h1
      rw [h.1] at h1
      exact absurd h1.symm hv

theorem growD_bounds (g : Grid) (th : ℚ) (st : StateRG) (p : Coord)
    (hcr : 0 ≤ st.currentRegion)
    (hb : ∀ q, 0 ≤ st.labels q ∧ st.labels q ≤ st.currentRegion) (q : Coord) :
    0 ≤ (growD g th st p).1.labels q ∧
      (growD g th st p).1.labels q ≤ st.currentRegion + 1 := by
  rcases (growD_spec g th st p hcr).1 q with h | h
  · rw [h]
    by_cases hq : q = p
    · subst hq; rw [setL_same]; omega
    · rw [setL_other _ _ _ _ hq]
      rcases hb q with ⟨h1, h2⟩
      omega
  · rw [h.2.1]
    omega

theorem applyD_c2 (g : Grid) (th : ℚ) :
    ∀ (ps : List Coord) (st : StateRG) (tr : List SeedStep),
    0 ≤ st.currentRegion →
    (∀ q, 0 ≤ st.labels q ∧ st.labels q ≤ st.currentRegion) →
    (∀ v, 1 ≤ v → 1 ≤ countOf g st.labels v → 64 ≤ countOf g st.labels v) →
    ∀ v, 1 ≤ v → 1 ≤ countOf g (applyD g th ps st tr).1.labels v →
      64 ≤ countOf g (applyD g th ps st tr).1.labels v ∨
      ((applyD g th ps st tr).2.2 = true ∧
        v = (applyD g th ps st tr).1.currentRegion) := by
  intro ps
  induction ps with
  | nil =>
    intro st tr hcr hb hinv v hv1 hv2
    left
    exact hinv v hv1 hv2
  | cons p ps ih =>
    intro st tr hcr hb hinv
    rw [applyD_cons]
    by_cases hc : st.labels p = 0 ∧ 0 < sqNorm (g.im p)
    · rw [if_pos hc]
      have hreg : (growD g th st p).1.currentRegion = st.currentRegion + 1 :=
        (growD_spec g th st p hcr).2
      by_cases hpa : passedAllP g (growD g th st p).1.iterations
          (growD g th st p).1.labels
      · rw [if_pos hpa]
        intro v hv1 hv2
        by_cases hvr : v = st.currentRegion + 1
        · right
          exact ⟨rfl, by rw [hreg, hvr]⟩
        · left
          rw [growD_countOf g th st p hcr hb hc.1 v (by omega) hvr] at hv2 ⊢
          exact hinv v hv1 hv2
      · rw [if_neg hpa]
        by_cases hcnt : countOf g (growD g th st p).1.labels
            (st.currentRegion + 1) < 64
        · rw [if_pos hcnt]
          refine ih _ _ (by simp only []; omega) ?_ ?_
          · intro q
            simp only []
            unfold clearLab
            split
            · omega
            · next hne =>
                rcases growD_bounds g th st p hcr hb q with ⟨h1, h2⟩
                omega
          · intro v hv1 hv2
            simp only [] at hv2 ⊢
            by_cases hvr : v = st.currentRegion + 1
            · rw [hvr] at hv2
              rw [countOf_clear_self g _ _ (by omega)] at hv2
              omega
            · rw [countOf_clear_other g _ _ v (by omega) hvr] at hv2 ⊢
              rw [growD_countOf g th st p hcr hb hc.1 v (by omega) hvr] at hv2 ⊢
              exact hinv v hv1 hv2
        · rw [if_neg hcnt]
          refine ih _ _ (by rw [hreg]; omega) ?_ ?_
          · intro q
            rw [hreg]
            exact growD_bounds g th st p hcr hb q
          · intro v hv1 hv2
            by_cases hvr : v = st.currentRegion + 1
            · rw [hvr]
              omega
            · rw [growD_countOf g th st p hcr hb hc.1 v (by omega) hvr] at hv2 ⊢
              exact hinv v hv1 hv2
    · rw [if_neg hc]
      exact ih st (tr ++ [⟨p, false, 0, [], 0, false, false⟩]) hcr hb hinv

theorem seedExpand_inBounds (g : Grid) (seeds : List Coord)
    (h : ∀ p ∈ seeds, inBounds g p) :
    ∀ p ∈ seedExpand g seeds, inBounds g p := by
  intro p hp
  rcases List.mem_flatMap.1 hp with ⟨q, hq, hp'⟩
  rcases List.mem_cons.1 hp' with rfl | hp'
  · exact h p hq
  · exact getNeighbour_inBounds g q p hp'

theorem applyD_oob (g : Grid) (th : ℚ) :
    ∀ (ps : List Coord) (st : StateRG) (tr : List SeedStep),
    0 ≤ st.currentRegion →
    (∀ p ∈ ps, inBounds g p) →
    (∀ q, ¬ inBounds g q → st.labels q = 0) →
    ∀ q, ¬ inBounds g q → (applyD g th ps st tr).1.labels q = 0 := by
  intro ps
  induction ps with
  | nil =>
    intro st tr _ _ hz q hq
    exact hz q hq
  | cons p ps ih =>
    intro st tr hcr hin hz
    rw [applyD_cons]
    by_cases hc : st.labels p = 0 ∧ 0 < sqNorm (g.im p)
    · rw [if_pos hc]
      have hinps : ∀ p' ∈ ps, inBounds g p' := fun p' hp' =>
        hin p' (List.mem_cons_of_mem _ hp')
      have hz2 : ∀ q, ¬ inBounds g q → (growD g th st p).1.labels q = 0 := by
        intro q hq
        have hqp : q ≠ p := fun h => hq (h ▸ hin p (List.mem_cons_self _ _))
        rcases (growD_spec g th st p hcr).1 q with h | h
        · rw [h, setL_other _ _ _ _ hqp]
          exact hz q hq
        · exact absurd h.2.2 hq
      by_cases hpa : passedAllP g (growD g th st p).1.iterations
          (growD g th st p).1.labels
      · rw [if_pos hpa]
        intro q hq
        exact hz2 q hq
      · rw [if_neg hpa]
        by_cases hcnt : countOf g (growD g th st p).1.labels
            (st.currentRegion + 1) < 64
        · rw [if_pos hcnt]
          refine ih _ _ (by simp only []; omega) hinps ?_
          intro q hq
          simp only []
          unfold clearLab
          rw [hz2 q hq]
          simp only [if_neg (by omega : ¬ (0 : ℤ) = st.currentRegion + 1)]
        · rw [if_neg hcnt]
          refine ih _ _ ?_ hinps hz2
          rw [(growD_spec g th st p hcr).2]
          omega
    · rw [if_neg hc]
      exact ih st (tr ++ [⟨p, false, 0, [], 0, false, false⟩]) hcr
        (fun p' hp' => hin p' (List.mem_cons_of_mem _ hp')) hz

theorem eventsOf_append (a b : List SeedStep) :
    eventsOf (a ++ b) = eventsOf a ++ eventsOf b := by
  unfold eventsOf
  exact List.flatMap_append a b _

/-- Well-formed event sequences: starting from counter value `c`, every
grown region takes id `c + 1`; a committed region leaves the counter at its
id, a reclaimed region restores it. -/
inductive EvOK : ℤ → List Event → Prop where
  | nil (c : ℤ) : EvOK c []
  | commit (c : ℤ) (rest : List Event) : EvOK (c + 1) rest →
      EvOK c (Event.grew (c + 1) :: rest)
  | reclaim (c : ℤ) (rest : List Event) : EvOK c rest →
      EvOK c (Event.grew (c + 1) :: Event.reclaimed (c + 1) :: rest)

theorem evok_head (c : ℤ) (l : List Event) (h : EvOK c l) :
    l = [] ∨ ∃ t, l = Event.grew (c + 1) :: t := by
  cases h with
  | nil => left; rfl
  | commit c rest h => right; exact ⟨rest, rfl⟩
  | reclaim c rest h => right; exact ⟨Event.reclaimed (c + 1) :: rest, rfl⟩

theorem evok_next (c : ℤ) (l : List Event) (h : EvOK c l) :
    ∀ (i : ℕ) (r : ℤ), l.get? i = some (Event.reclaimed r) →
      l.get? (i + 1) = none ∨ l.get? (i + 1) = some (Event.grew r) := by
  induction h with
  | nil c => intro i r hi; simp at hi
  | commit c rest h ih =>
    intro i r hi
    cases i with
    | zero => simp at hi
    | succ i =>
      simp only [List.get?_cons_succ] at hi ⊢
      exact ih i r hi
  | reclaim c rest h ih =>
    intro i r hi
    cases i with
    | zero => simp at hi
    | succ i =>
      cases i with
      | zero =>
        simp only [List.get?_cons_succ, List.get?_cons_zero,
          Option.some.injEq] at hi
        have hr : r = c + 1 := by
          cases hi
          rfl
        subst hr
        rcases evok_head c rest h with h1 | ⟨t, h1⟩
        · left
          subst h1
          rfl
        · right
          rw [h1]
          rfl
      | succ i =>
        simp only [List.get?_cons_succ] at hi ⊢
        exact ih i r hi

theorem applyD_evok (g : Grid) (th : ℚ) :
    ∀ (ps : List Coord) (st : StateRG) (tr : List SeedStep),
    0 ≤ st.currentRegion →
    ∃ Δ, eventsOf (applyD g th ps st tr).2.1 = eventsOf tr ++ Δ ∧
      EvOK st.currentRegion Δ := by
  intro ps
  induction ps with
  | nil =>
    intro st tr _
    exact ⟨[], by simp [applyD], EvOK.nil _⟩
  | cons p ps ih =>
    intro st tr hcr
    rw [applyD_cons]
    by_cases hc : st.labels p = 0 ∧ 0 < sqNorm (g.im p)
    · rw [if_pos hc]
      by_cases hpa : passedAllP g (growD g th st p).1.iterations
          (growD g th st p).1.labels
      · rw [if_pos hpa]
        refine ⟨[Event.grew (st.currentRegion + 1)], ?_, ?_⟩
        · dsimp only
          rw [eventsOf_append]
          simp [eventsOf]
        · exact EvOK.commit _ [] (EvOK.nil _)
      · rw [if_neg hpa]
        by_cases hcnt : countOf g (growD g th st p).1.labels
            (st.currentRegion + 1) < 64
        · rw [if_pos hcnt]
          rcases ih ⟨clearLab (growD g th st p).1.labels (st.currentRegion + 1),
              st.currentRegion + 1 - 1, (growD g th st p).1.iterations,
              (growD g th st p).1.stack⟩
            (tr ++ [⟨p, true, st.currentRegion + 1, (growD g th st p).2,
              countOf g (growD g th st p).1.labels (st.currentRegion + 1),
              true, false⟩]) (by simp only []; omega) with ⟨Δ, hΔeq, hΔ⟩
          refine ⟨Event.grew (st.currentRegion + 1) ::
            Event.reclaimed (st.currentRegion + 1) :: Δ, ?_, ?_⟩
          · rw [hΔeq, eventsOf_append]
            simp [eventsOf]
          · refine EvOK.reclaim _ Δ ?_
            have he : st.currentRegion + 1 - 1 = st.currentRegion := by omega
            rw [← he]
            simpa using hΔ
        · rw [if_neg hcnt]
          rcases ih (growD g th st p).1
            (tr ++ [⟨p, true, st.currentRegion + 1, (growD g th st p).2,
              countOf g (growD g th st p).1.labels (st.currentRegion + 1),
              false, false⟩])
            (by rw [(growD_spec g th st p hcr).2]; omega) with ⟨Δ, hΔeq, hΔ⟩
          refine ⟨Event.grew (st.currentRegion + 1) :: Δ, ?_, ?_⟩
          · rw [hΔeq, eventsOf_append]
            simp [eventsOf]
          · refine EvOK.commit _ Δ ?_
            rw [← (growD_spec g th st p hcr).2]
            exact hΔ
    · rw [if_neg hc]
      rcases ih st (tr ++ [⟨p, false, 0, [], 0, false, false⟩]) hcr with
        ⟨Δ, hΔeq, hΔ⟩
      refine ⟨Δ, ?_, hΔ⟩
      rw [hΔeq, eventsOf_append]
      simp [eventsOf]

/-! ## Claim C10 -/

/-- C10: popping the fixed-threshold variant's `Stack` when it is empty
leaves the entire stack state (contents, size, capacity) unchanged and does
not write to the caller's output coordinate variables; and across any
sequence of operations issued from `initStack 1000`, the `size` field never
goes below zero. -/
theorem c10_pop_empty_stack_safe :
    (∀ (s : CStack) (a b : ℤ), s.size = 0 → popStack s a b = (s, a, b)) ∧
    (∀ ops : List StackOp, 0 ≤ (runOps ops).size) := by
  constructor
  · intro s a b h
    unfold popStack
    rw [if_neg]
    omega
  · exact runOps_size_nonneg

/-- Witness for C10 at a concrete empty stack and a concrete operation
sequence that pops more often than it pushes. -/
theorem c10_pop_empty_stack_safe_witness :
    popStack (initStack 1000) 7 8 = (initStack 1000, 7, 8) ∧
    0 ≤ (runOps [StackOp.popOp, StackOp.pushOp 1 2, StackOp.popOp,
      StackOp.popOp]).size :=
  ⟨c10_pop_empty_stack_safe.1 (initStack 1000) 7 8 rfl,
   c10_pop_empty_stack_safe.2 _⟩

/-! ## Claim C5 -/

/-- C5: in adaptive mode, at every similarity comparison performed during
region growth, the effective `runningVariance` bound is at least the
configured threshold: it starts at `thresh` for each scan, is updated to
`mean(elems)` on each admission, and `var = max(var, thresh)` is enforced
after each completed loop iteration, so no comparison ever observes it
below the configured floor. -/
theorem c5_adaptive_threshold_floor (g : Grid) (th : ℚ) (seeds : List Coord)
    (q : ℚ) (hq : q ∈ allCompVars g th seeds) : th ≤ q := by
  rcases List.mem_filterMap.1 hq with ⟨e, he, hcv⟩
  exact (allEntries_eprop g th seeds e he).1 q hcv

/-- Witness for C5: the bound 5 is observed at a comparison of the uniform
1×4 run with threshold 5, and it is no smaller than the threshold. -/
theorem c5_adaptive_threshold_floor_witness :
    (5 : ℚ) ∈ allCompVars (gridUniform 1 4) 5 [((0 : ℤ), (1 : ℤ))] ∧
      (5 : ℚ) ≤ 5 :=
  ⟨by with_unfolding_all decide,
   c5_adaptive_threshold_floor (gridUniform 1 4) 5 [((0 : ℤ), (1 : ℤ))] 5
     (by with_unfolding_all decide)⟩

/-! ## Claim C4 -/

/-- C4 as stated is false: the accumulator is restarted at every popped
pixel, so at the admission of `(0,3)` during the scan of popped pixel
`(0,2)` of the uniform 1×4 run seeded at `(0,1)`, the accumulator holds 2
entries although 4 pixels (seed included) have been admitted into the
region. -/
theorem c4_region_accumulator_counterexample :
    regionAccumulatorLaw (gridUniform 1 4) 5 [((0 : ℤ), (1 : ℤ))] = false := by
  with_unfolding_all decide

/-- The admission of `(0,3)` during the scan of popped pixel `(0,2)` in the
uniform 1×4 run seeded at `(0,1)`. -/
def entryC4 : Entry :=
  ⟨((0 : ℤ), (3 : ℤ)), false, 0, some 5, true, [3, 3], 0, ((0 : ℤ), (2 : ℤ))⟩

/-- C4 amended: the accumulator's lifetime is one popped pixel's neighbor
scan, not one region's growth: at every admission it holds the popped
pixel's brightness followed by one entry per admission of the current scan
(so its length is the number of admissions in this scan so far plus two,
and its first element is the popped pixel's brightness), and the adaptive
bound is the running mean of that per-scan sequence. -/
theorem c4_amended_accumulator_per_scan (g : Grid) (th : ℚ)
    (seeds : List Coord) (e : Entry) (he : e ∈ allEntries g th seeds)
    (hacc : e.accepted = true) :
    e.elemsAfter.length = e.accIdx + 2 ∧
      e.elemsAfter.head? = some (brightness (g.im e.scanPop)) :=
  (allEntries_eprop g th seeds e he).2.1 hacc

/-- Witness for the amended C4 at the concrete admission `entryC4`. -/
theorem c4_amended_accumulator_per_scan_witness :
    entryC4 ∈ allEntries (gridUniform 1 4) 5 [((0 : ℤ), (1 : ℤ))] ∧
    (entryC4.elemsAfter.length = entryC4.accIdx + 2 ∧
      entryC4.elemsAfter.head? =
        some (brightness ((gridUniform 1 4).im entryC4.scanPop))) :=
  ⟨by with_unfolding_all decide,
   c4_amended_accumulator_per_scan (gridUniform 1 4) 5 [((0 : ℤ), (1 : ℤ))]
     entryC4 (by with_unfolding_all decide) rfl⟩

/-! ## Claim C7 -/

/-- C7 as stated is false: in the uniform 1×4 run seeded at `(0,2)`, the
termination predicate becomes true while pixel `(0,1)` is being scanned
(its first neighbor `(0,0)` completes the label map), yet the remaining
neighbor `(0,2)` is still examined — the scan is not abandoned
immediately. -/
theorem c7_immediate_abandon_counterexample :
    immediateAbandonLaw (gridUniform 1 4) 5 [((0 : ℤ), (2 : ℤ))] = false := by
  with_unfolding_all decide

/-- The examination of neighbor `(0,2)` of popped pixel `(0,1)` after the
termination predicate became true, in the uniform 1×4 run seeded at
`(0,2)`. -/
def entryC7 : Entry :=
  ⟨((0 : ℤ), (2 : ℤ)), true, 1, none, false, [3, 3], 1, ((0 : ℤ), (1 : ℤ))⟩

/-- C7 amended: once the termination predicate holds at a point of a
neighbor scan, no further neighbor of that popped pixel is labeled or
pushed — the loop `break`s at the next admission attempt — but remaining
neighbors may still be examined (label lookups), so the scan is not always
abandoned at the very point the predicate becomes true. -/
theorem c7_amended_no_admission_after_predicate (g : Grid) (th : ℚ)
    (seeds : List Coord) (e : Entry) (he : e ∈ allEntries g th seeds)
    (hp : e.predAt = true) : e.accepted = false :=
  (allEntries_eprop g th seeds e he).2.2 hp

/-- Witness for the amended C7 at the concrete examination `entryC7`. -/
theorem c7_amended_no_admission_after_predicate_witness :
    entryC7 ∈ allEntries (gridUniform 1 4) 5 [((0 : ℤ), (2 : ℤ))] ∧
      entryC7.accepted = false :=
  ⟨by with_unfolding_all decide,
   c7_amended_no_admission_after_predicate (gridUniform 1 4) 5
     [((0 : ℤ), (2 : ℤ))] entryC7 (by with_unfolding_all decide) rfl⟩

/-! ## Claim C1 -/

/-- C1 as stated is false: on the 1×3 chain image with threshold 10, the
exhaustive pass admits pixel `(0,2)` into region 1 (seeded at `(0,0)`)
although its color distance to the seed pixel is 18, well above the
threshold — fixed mode compares each candidate to the currently popped
pixel, not to the region's original seed. -/
theorem c1_seed_distance_counterexample :
    fixedSeedDistanceLaw gridChain 10 = false := by decide

/-- The first region of the exhaustive run on the 1×3 chain image: id 1,
seed `(0,0)`, admissions `(0,0) → (0,1)` and `(0,1) → (0,2)`. -/
def recC1 : RegionRec :=
  ⟨1, ((0 : ℤ), (0 : ℤ)),
    [(((0 : ℤ), (0 : ℤ)), ((0 : ℤ), (1 : ℤ))),
     (((0 : ℤ), (1 : ℤ)), ((0 : ℤ), (2 : ℤ)))]⟩

/-- C1 amended: in fixed mode every admitted pixel's Euclidean color
distance to the pixel that was popped (being scanned) at the moment of its
admission is strictly below the configured threshold, and the admitted
pixel and its admitting pixel both end up carrying the region's id; the
distance to the region's original seed is not bounded. -/
theorem c1_amended_popped_distance (g : Grid) (th : ℚ) (rec : RegionRec)
    (hrec : rec ∈ (applyRG g th).2) (pc : Adm) (hpc : pc ∈ rec.adms) :
    distLt (sqDist (g.im pc.1) (g.im pc.2)) th ∧
    (applyRG g th).1.labels pc.2 = rec.id ∧
    (applyRG g th).1.labels pc.1 = rec.id :=
  ((applyRG_spec g th).2.2.2.2 rec hrec).2.2 pc hpc

/-- Witness for the amended C1 at the admission `(0,1) → (0,2)` of the 1×3
chain run. -/
theorem c1_amended_popped_distance_witness :
    recC1 ∈ (applyRG gridChain 10).2 ∧
    (((0 : ℤ), (1 : ℤ)), ((0 : ℤ), (2 : ℤ))) ∈ recC1.adms ∧
    (distLt (sqDist (gridChain.im ((0 : ℤ), (1 : ℤ)))
        (gridChain.im ((0 : ℤ), (2 : ℤ)))) 10 ∧
      (applyRG gridChain 10).1.labels ((0 : ℤ), (2 : ℤ)) = recC1.id ∧
      (applyRG gridChain 10).1.labels ((0 : ℤ), (1 : ℤ)) = recC1.id) :=
  ⟨by decide, by decide,
   c1_amended_popped_distance gridChain 10 recC1 (by decide)
     (((0 : ℤ), (1 : ℤ)), ((0 : ℤ), (2 : ℤ))) (by decide)⟩

/-! ## Claim C2 -/

/-- C2 as stated is false: on the uniform 3×3 image with threshold 5 and
seed `(1,1)`, the single region fills the whole image, the termination
predicate fires, and the `break` precedes the size check, so a 9-pixel
region (< 64) survives in the final label map. -/
theorem c2_reclamation_size_counterexample :
    reclamationSizeLaw (gridUniform 3 3) 5 [((1 : ℤ), (1 : ℤ))] = false := by
  with_unfolding_all decide

/-- C2 amended: every non-zero label present in the final interactive label
map covers at least 64 cells, unless the run ended through the global
termination predicate immediately after growing that region (the `break`
precedes the size check), in which case only the last-grown region — the
one carrying the final counter value — may be smaller. -/
theorem c2_amended_reclamation_size (g : Grid) (th : ℚ) (seeds : List Coord)
    (v : ℤ) (hv1 : 1 ≤ v)
    (hv2 : 1 ≤ countOf g (runD g th seeds).1.labels v) :
    64 ≤ countOf g (runD g th seeds).1.labels v ∨
      ((runD g th seeds).2.2 = true ∧
        v = (runD g th seeds).1.currentRegion) := by
  refine applyD_c2 g th (seedExpand g seeds) ⟨fun _ => 0, 0, 0, []⟩ []
    le_rfl (fun q => ⟨le_rfl, le_rfl⟩) ?_ v hv1 hv2
  intro v' hv1' hv2'
  rw [countOf_const_zero g v' (by omega)] at hv2'
  omega

/-- Witness for the amended C2: on the uniform 3×3 run the surviving
9-pixel region is indeed the last-grown one and the run broke out through
the termination predicate. -/
theorem c2_amended_reclamation_size_witness :
    1 ≤ countOf (gridUniform 3 3)
        (runD (gridUniform 3 3) 5 [((1 : ℤ), (1 : ℤ))]).1.labels 1 ∧
    (64 ≤ countOf (gridUniform 3 3)
        (runD (gridUniform 3 3) 5 [((1 : ℤ), (1 : ℤ))]).1.labels 1 ∨
      ((runD (gridUniform 3 3) 5 [((1 : ℤ), (1 : ℤ))]).2.2 = true ∧
        (1 : ℤ) = (runD (gridUniform 3 3) 5
          [((1 : ℤ), (1 : ℤ))]).1.currentRegion)) :=
  ⟨by with_unfolding_all decide,
   c2_amended_reclamation_size (gridUniform 3 3) 5 [((1 : ℤ), (1 : ℤ))] 1
     le_rfl (by with_unfolding_all decide)⟩

/-! ## Claim C3 -/

/-- C3 fails on the code: on the 1×5 split image with threshold 5 and seed
`(0,0)`, the 2-pixel region grown at `(0,0)` is reclaimed (labels cleared,
counter decremented), but the next candidate processed is the next entry of
the expanded seed list, `(0,1)` — not the shifted coordinate `(-1,-1)`.
`reset_region` does return the shifted pair, but `ApplyRegionGrow` assigns
it to the loop-local copies `x0, y0`, which the range-`for` discards. -/
theorem c3_shifted_retry_code_bug :
    shiftedRetryLaw gridSplit 5 [((0 : ℤ), (0 : ℤ))] = false ∧
    ((runD gridSplit 5 [((0 : ℤ), (0 : ℤ))]).2.1.map SeedStep.seed) =
      [((0 : ℤ), (0 : ℤ)), ((0 : ℤ), (1 : ℤ))] ∧
    ((runD gridSplit 5 [((0 : ℤ), (0 : ℤ))]).2.1.map SeedStep.reclaimed) =
      [true, true] := by
  refine ⟨?_, ?_, ?_⟩ <;> with_unfolding_all decide

/-! ## Claim C6 -/

/-- C6: after the exhaustive pass on any grid with positive dimensions,
every cell holds a non-zero label — the count of labeled cells equals
`width · height` — because every pixel still unlabeled when the row-major
scan reaches it becomes the seed of a new region. -/
theorem c6_exhaustive_completeness (g : Grid) (th : ℚ)
    (_hh : 0 < g.h) (_hw : 0 < g.w) :
    countLabeled g (applyRG g th).1.labels = g.h * g.w := by
  rw [countLabeled, ← cells_length g, List.countP_eq_length]
  intro p hp
  exact decide_eq_true ((applyRG_spec g th).1 p hp)

/-- Witness for C6 on the 1×3 chain image. -/
theorem c6_exhaustive_completeness_witness :
    0 < gridChain.h ∧ 0 < gridChain.w ∧
    countLabeled gridChain (applyRG gridChain 10).1.labels =
      gridChain.h * gridChain.w :=
  ⟨by decide, by decide,
   c6_exhaustive_completeness gridChain 10 (by decide) (by decide)⟩

/-! ## Claim C8 -/

/-- C8: in exhaustive mode the set of non-zero labels of the final LabelMap
is exactly `{1, …, currentRegion}` — a value is carried by some cell iff it
lies in that interval — and in interactive mode a reclaimed region's id is
reused by the very next region grown (the counter is decremented on
reclamation, so the event following `reclaimed r` can only be `grew r`),
never left as a gap. -/
theorem c8_region_id_law :
    (∀ (g : Grid) (th : ℚ) (v : ℤ),
      1 ≤ countOf g (applyRG g th).1.labels v ↔
        (1 ≤ v ∧ v ≤ (applyRG g th).1.currentRegion)) ∧
    (∀ (g : Grid) (th : ℚ) (seeds : List Coord) (i : ℕ) (r : ℤ),
      (eventsOf (runD g th seeds).2.1).get? i = some (Event.reclaimed r) →
      (eventsOf (runD g th seeds).2.1).get? (i + 1) = none ∨
      (eventsOf (runD g th seeds).2.1).get? (i + 1) =
        some (Event.grew r)) := by
  constructor
  · intro g th v
    constructor
    · intro hv
      have h0 : 0 < (cells g).countP
          fun p => decide ((applyRG g th).1.labels p = v) := hv
      rcases List.countP_pos_iff.1 h0 with ⟨p, hp, hpv⟩
      have hpv' : (applyRG g th).1.labels p = v := of_decide_eq_true hpv
      have h1 := (applyRG_spec g th).1 p hp
      have h2 := ((applyRG_spec g th).2.1 p).1
      have h3 := ((applyRG_spec g th).2.1 p).2
      rw [hpv'] at h1 h2 h3
      exact ⟨by omega, h3⟩
    · rintro ⟨hv1, hv2⟩
      rcases (applyRG_spec g th).2.2.1 v (by omega) hv2 with ⟨p, hp, hpv⟩
      have h0 : 0 < (cells g).countP
          fun p => decide ((applyRG g th).1.labels p = v) :=
        List.countP_pos_iff.2 ⟨p, hp, decide_eq_true hpv⟩
      exact h0
  · intro g th seeds i r hi
    rcases applyD_evok g th (seedExpand g seeds) ⟨fun _ => 0, 0, 0, []⟩ []
      le_rfl with ⟨Δ, hΔeq, hΔ⟩
    have he : eventsOf (runD g th seeds).2.1 = Δ := by
      rw [runD, hΔeq]
      rfl
    rw [he] at hi ⊢
    exact evok_next 0 Δ hΔ i r hi

/-- Witness for C8: on the 1×5 split run the event after `reclaimed 1` is
`grew 1` — the reclaimed id is reused; and label 1 is carried by some cell
of the 1×3 chain run while 2 is not. -/
theorem c8_region_id_law_witness :
    (1 ≤ countOf gridChain (applyRG gridChain 10).1.labels 1 ∧
      (1 : ℤ) ≤ 1 ∧ (1 : ℤ) ≤ (applyRG gridChain 10).1.currentRegion) ∧
    ((eventsOf (runD gridSplit 5 [((0 : ℤ), (0 : ℤ))]).2.1).get? 2 = none ∨
      (eventsOf (runD gridSplit 5 [((0 : ℤ), (0 : ℤ))]).2.1).get? 2 =
        some (Event.grew 1)) :=
  ⟨⟨by decide, (c8_region_id_law.1 gridChain 10 1).1 (by decide)⟩,
   c8_region_id_law.2 gridSplit 5 [((0 : ℤ), (0 : ℤ))] 1 1
     (by with_unfolding_all decide)⟩

/-! ## Claim C9 -/

/-- C9: the boundary predicate is applied to every generated neighbor —
`getNeighbour` returns only in-bounds coordinates — and no label is ever
assigned outside `[0,h)×[0,w)`: after an exhaustive run, and after an
interactive run whose caller-supplied seeds are in bounds (§7 of the spec
requires out-of-bounds input to be rejected before the algorithm starts),
every out-of-bounds coordinate still carries label 0. -/
theorem c9_boundary_exclusion :
    (∀ (g : Grid) (p : Coord), ∀ n ∈ getNeighbour g p, inBounds g n) ∧
    (∀ (g : Grid) (th : ℚ) (q : Coord), ¬ inBounds g q →
      (applyRG g th).1.labels q = 0) ∧
    (∀ (g : Grid) (th : ℚ) (seeds : List Coord),
      (∀ p ∈ seeds, inBounds g p) → ∀ q, ¬ inBounds g q →
      (runD g th seeds).1.labels q = 0) := by
  refine ⟨getNeighbour_inBounds, ?_, ?_⟩
  · intro g th q hq
    exact (applyRG_spec g th).2.2.2.1 q hq
  · intro g th seeds hs q hq
    exact applyD_oob g th (seedExpand g seeds) ⟨fun _ => 0, 0, 0, []⟩ []
      le_rfl (seedExpand_inBounds g seeds hs) (fun _ _ => rfl) q hq

/-- Witness for C9 at concrete neighbors, an out-of-bounds cell of the
exhaustive 1×3 run and an out-of-bounds cell of the interactive 3×3 run. -/
theorem c9_boundary_exclusion_witness :
    inBounds (gridUniform 3 3) ((0 : ℤ), (1 : ℤ)) ∧
    (applyRG gridChain 10).1.labels ((-1 : ℤ), (0 : ℤ)) = 0 ∧
    (runD (gridUniform 3 3) 5 [((1 : ℤ), (1 : ℤ))]).1.labels
      ((5 : ℤ), (5 : ℤ)) = 0 :=
  ⟨c9_boundary_exclusion.1 (gridUniform 3 3) ((0 : ℤ), (0 : ℤ))
      ((0 : ℤ), (1 : ℤ)) (by decide),
   c9_boundary_exclusion.2.1 gridChain 10 ((-1 : ℤ), (0 : ℤ)) (by decide),
   c9_boundary_exclusion.2.2 (gridUniform 3 3) 5 [((1 : ℤ), (1 : ℤ))]
     (by decide) ((5 : ℤ), (5 : ℤ)) (by decide)⟩

end RegGrow
